import Mathlib

/-!
Verification of the ledger-reconcile file mutation engine.

A shallow embedding of `ledger_reconcile/file_editor.py` and
`ledger_reconcile/file_watcher.py`.  A physical line of the ledger file is
modelled as a `List Char` (so that byte-for-byte equality of lines is plain
list equality), a file is a `List Line`, and the optimistic-concurrency file
system is a small explicit state.  Python string helpers (`strip`, `lstrip`,
`rstrip`) are reproduced over `List Char`, and the two anchored regular
expressions of the source are unfolded into explicit character scans with
the same greedy semantics.
-/

set_option maxHeartbeats 1000000

abbrev Line := List Char

/-- Whitespace as recognised by Python's `str.strip` family (ASCII range). -/
def isWs (c : Char) : Bool :=
  c = ' ' || c = '\t' || c = '\n' || c = '\r' || c = '\x0b' || c = '\x0c'

/-- Python `str.lstrip()`. -/
def lstrip (l : Line) : Line := l.dropWhile isWs

/-- Python `str.rstrip()`. -/
def rstripWs (l : Line) : Line := (l.reverse.dropWhile isWs).reverse

/-- Python `str.strip()`. -/
def pstrip (l : Line) : Line := rstripWs (lstrip l)

/-- Python `line.rstrip("\n")`: drop every trailing newline character. -/
def rstripNl (l : Line) : Line := (l.reverse.dropWhile (fun c => c = '\n')).reverse

/-- Python `line.endswith("\n")`. -/
def endsWithNl (l : Line) : Bool := l.getLast? = some '\n'

/-- One character of the `[\x2d/]` separator class. -/
def isDateSep (c : Char) : Bool := c = '-' || c = '/'

/-- `re.match(r"^\d{4}[\x2d/]\d{2}[\x2d/]\d{2}", s)` succeeds on `s`
(the pattern is of fixed width 10, anchored at the start). -/
def isDateStart : Line → Bool
  | a :: b :: c :: d :: s1 :: e :: f :: s2 :: g :: h :: _ =>
    a.isDigit && b.isDigit && c.isDigit && d.isDigit && isDateSep s1 &&
      e.isDigit && f.isDigit && isDateSep s2 && g.isDigit && h.isDigit
  | _ => false

/-- Whether the 0-based index `i` of the buffer holds a transaction-header
line, i.e. `re.match(r"^\d{4}[\x2d/]\d{2}[\x2d/]\d{2}", lines[i].strip())`. -/
def isDate0 (lines : List Line) (i : Nat) : Bool :=
  isDateStart (pstrip (lines.getD i []))

/-- `LedgerFileEditor._extract_posting_status`: the explicit marker of a
posting line (`""`, `"!"` or `"*"`, as a `Line`). -/
def extractPostingStatus (line : Line) : Line :=
  match lstrip line with
  | c :: _ => if c = '!' || c = '*' then [c] else []
  | [] => []

/-- `LedgerFileEditor._is_valid_posting_line`. -/
def isValidPostingLine (line : Line) : Bool :=
  let stripped := pstrip line
  if stripped = [] then false
  else if stripped.head? = some ';' then false
  else if isDateStart stripped then false
  else match line with
       | c :: _ => c = ' ' || c = '\t'
       | [] => false

/-- The match of `^(\d{4}[\x2d/]\d{2}[\x2d/]\d{2})\s*([!*]?)\s*(.*)$` against a
stripped line, returning the three capture groups.  The input is assumed to
be the result of `pstrip` (so it never ends in whitespace); `.` does not
match a newline and `$` only matches at the end, so after the greedy
whitespace runs the description group must be free of `'\n'`, otherwise the
whole match fails (Python backtracking cannot recover: a marker character is
not whitespace). -/
def matchTransactionHeader (s : Line) : Option (Line × Line × Line) :=
  match s with
  | a :: b :: c :: d :: s1 :: e :: f :: s2 :: g :: h :: rest =>
    if a.isDigit && b.isDigit && c.isDigit && d.isDigit && isDateSep s1 &&
        e.isDigit && f.isDigit && isDateSep s2 && g.isDigit && h.isDigit then
      let date : Line := [a, b, c, d, s1, e, f, s2, g, h]
      match rest.dropWhile isWs with
      | m :: r2 =>
        if m = '!' || m = '*' then
          let t := r2.dropWhile isWs
          if t.contains '\n' then none else some (date, [m], t)
        else
          if (m :: r2).contains '\n' then none else some (date, [], m :: r2)
      | [] => some (date, [], [])
    else none
  | _ => none

/-- `LedgerFileEditor._update_transaction_line`. -/
def updateTransactionLine (line : Line) (newStatus : Line) : Line :=
  let lineWithoutNewline := rstripNl line
  match matchTransactionHeader (pstrip lineWithoutNewline) with
  | none => line
  | some (date, _, description) =>
    let leadingWs := lineWithoutNewline.takeWhile isWs
    let newLine :=
      if newStatus ≠ [] then
        leadingWs ++ date ++ [' '] ++ newStatus ++ [' '] ++ description
      else
        leadingWs ++ date ++ [' '] ++ description
    if endsWithNl line then newLine ++ ['\n'] else newLine

/-- `LedgerFileEditor._update_posting_line`. -/
def updatePostingLine (line : Line) (newStatus : Line) : Line :=
  if pstrip line = [] then line
  else
    let lineWithoutNewline := rstripNl line
    let leadingWs := lineWithoutNewline.takeWhile isWs
    let stripped := lstrip lineWithoutNewline
    let hasExistingStatus :=
      match stripped with
      | c :: _ => c = '!' || c = '*'
      | [] => false
    let stripped2 := if hasExistingStatus then lstrip stripped.tail else stripped
    if newStatus = [] && !hasExistingStatus then line
    else
      let newLine :=
        if newStatus ≠ [] then leadingWs ++ newStatus ++ [' '] ++ stripped2
        else leadingWs ++ stripped2
      if endsWithNl line then newLine ++ ['\n'] else newLine

/-- The status parsed from a transaction header by
`re.match(r"^\d{4}[\x2d/]\d{2}[\x2d/]\d{2}\s*([!*]?)", trans_line.strip())`,
group 1 (empty when the date pattern does not match, as in
`_get_effective_posting_status`). -/
def transactionHeaderStatus (transLine : Line) : Line :=
  let s := pstrip transLine
  if isDateStart s then
    match (s.drop 10).dropWhile isWs with
    | c :: _ => if c = '!' || c = '*' then [c] else []
    | [] => []
  else []

/-- `LedgerFileEditor._get_effective_posting_status` (line numbers 1-based). -/
def getEffectivePostingStatus (lines : List Line) (postingLineNum transLineNum : Nat) : Line :=
  let postingStatus := extractPostingStatus (lines.getD (postingLineNum - 1) [])
  if postingStatus ≠ [] then postingStatus
  else transactionHeaderStatus (lines.getD (transLineNum - 1) [])

/-- The backward scan of `LedgerFileEditor._find_transaction_for_posting`:
`findTransAux lines m` examines 0-based indices `m-1, m-2, ..., 0`. -/
def findTransAux (lines : List Line) : Nat → Option Nat
  | 0 => none
  | i + 1 =>
    let line := lines.getD i []
    if isDateStart (pstrip line) then some (i + 1)
    else if pstrip line = [] then none
    else findTransAux lines i

/-- `LedgerFileEditor._find_transaction_for_posting`: scan backward from the
line above the (1-based) posting line; a transaction header yields its
1-based line number, a blank line or running off the top yields `none`. -/
def findTransactionForPosting (lines : List Line) (postingLineNum : Nat) : Option Nat :=
  findTransAux lines (postingLineNum - 1)

/-- The forward scan of `LedgerFileEditor._find_all_postings_for_transaction`:
`rest` is the buffer from 0-based index `i` on; collected numbers are
1-based. -/
def scanPostings : List Line → Nat → List Nat
  | [], _ => []
  | l :: rest, i =>
    if pstrip l = [] then []
    else if isDateStart (pstrip l) then []
    else if lstrip l ≠ [] && !(l.head? = some ' ' || l.head? = some '\t') then []
    else if pstrip l ≠ [] then (i + 1) :: scanPostings rest (i + 1)
    else scanPostings rest (i + 1)

/-- `LedgerFileEditor._find_all_postings_for_transaction` (1-based header
line number; the scan starts on the line after the header). -/
def findAllPostingsForTransaction (lines : List Line) (transLineNum : Nat) : List Nat :=
  scanPostings (lines.drop transLineNum) transLineNum

/-- The validation pass of `LedgerFileEditor.update_postings_status` for one
target line number: in range, a valid posting line, with a resolvable owning
transaction whose effective status equals the expected one. -/
def validateTarget (lines : List Line) (expected : Line) (n : Nat) : Bool :=
  if n < 1 || lines.length < n then false
  else if !isValidPostingLine (lines.getD (n - 1) []) then false
  else match findTransactionForPosting lines n with
       | none => false
       | some t => getEffectivePostingStatus lines n t = expected

/-- Appending a posting line number to its transaction's bucket in the
insertion-ordered association list that models the Python `dict`. -/
def insertGroup (t n : Nat) : List (Nat × List Nat) → List (Nat × List Nat)
  | [] => [(t, [n])]
  | (t', ns) :: rest =>
    if t' = t then (t', ns ++ [n]) :: rest else (t', ns) :: insertGroup t n rest

/-- The grouping pass of `update_postings_status`: partition the targets by
owning transaction header, preserving first-appearance order of the keys
and target order inside each bucket (`none` reproduces the defensive
`return False` when a transaction cannot be resolved). -/
def groupByTransaction (lines : List Line) (nums : List Nat) :
    Option (List (Nat × List Nat)) :=
  nums.foldlM
    (fun acc n => (findTransactionForPosting lines n).map (fun t => insertGroup t n acc))
    []

/-- The `final_statuses` table of `update_postings_status` for one affected
transaction: every enumerated posting paired with the status it is planned
to end up with (`newStatus` for targets, current effective status
otherwise). -/
def finalStatusesOf (lines : List Line) (t : Nat) (targets : List Nat) (newStatus : Line) :
    List (Nat × Line) :=
  (findAllPostingsForTransaction lines t).map
    (fun p => (p, if p ∈ targets then newStatus else getEffectivePostingStatus lines p t))

/-- `len(set(final_statuses.values())) == 1`. -/
def allSameStatus : List Line → Bool
  | [] => false
  | s :: rest => rest.all (fun x => x = s)

/-- The per-transaction rewrite step of `update_postings_status`: choose the
collapsed (header) or per-posting representation and rewrite the affected
lines in the buffer. -/
def processTransaction (lines : List Line) (t : Nat) (targets : List Nat) (newStatus : Line) :
    List Line :=
  let finalStatuses := finalStatusesOf lines t targets newStatus
  let allPostingLines := finalStatuses.map Prod.fst
  if allSameStatus (finalStatuses.map Prod.snd) && !allPostingLines.isEmpty then
    let lines1 := lines.set (t - 1) (updateTransactionLine (lines.getD (t - 1) []) newStatus)
    allPostingLines.foldl
      (fun acc p => acc.set (p - 1) (updatePostingLine (acc.getD (p - 1) []) [])) lines1
  else
    let lines1 := lines.set (t - 1) (updateTransactionLine (lines.getD (t - 1) []) [])
    finalStatuses.foldl
      (fun acc ps => acc.set (ps.1 - 1) (updatePostingLine (acc.getD (ps.1 - 1) []) ps.2)) lines1

/-- Sequential processing of the grouped transactions (Python iterates the
`transactions` dict in insertion order, mutating `lines` in place). -/
def applyGroups (newStatus : Line) : List Line → List (Nat × List Nat) → List Line
  | lines, [] => lines
  | lines, (t, ps) :: rest => applyGroups newStatus (processTransaction lines t ps newStatus) rest

/-- The pure read-validate-group-rewrite pipeline of
`LedgerFileEditor.update_postings_status` on an in-memory buffer: `none`
when the batch is rejected by validation (or grouping), otherwise the fully
rewritten buffer that is handed to the safe writer. -/
def updatePostingsPlan (lines : List Line) (nums : List Nat) (expected newStatus : Line) :
    Option (List Line) :=
  if !nums.all (validateTarget lines expected) then none
  else match groupByTransaction lines nums with
       | none => none
       | some groups => some (applyGroups newStatus lines groups)

/-- The planned `(transaction, final_statuses)` tables of one batch, each
computed against the buffer state at the moment its transaction is
processed, exactly as `update_postings_status` does while mutating `lines`
sequentially. -/
def groupPlans (newStatus : Line) : List Line → List (Nat × List Nat) → List (Nat × List (Nat × Line))
  | _, [] => []
  | lines, (t, ps) :: rest =>
    (t, finalStatusesOf lines t ps newStatus) ::
      groupPlans newStatus (processTransaction lines t ps newStatus) rest

/-- The ledger file as seen by `SafeFileEditor`: either absent or a list of
physical lines together with its modification time (an abstract clock
value comparable with wall-clock read timestamps). -/
structure FileState where
  file : Option (List Line × Nat)
deriving Repr, DecidableEq

/-- `LedgerFileWatcher._get_modification_time` (0.0 when the file does not
exist). -/
def mtimeOf (fs : FileState) : Nat :=
  match fs.file with
  | some (_, m) => m
  | none => 0

/-- `SafeFileEditor.read_lines_safely`: the buffer plus the wall-clock read
time `now` (an empty buffer when the file does not exist). -/
def readLinesSafely (fs : FileState) (now : Nat) : List Line × Nat :=
  match fs.file with
  | some (c, _) => (c, now)
  | none => ([], now)

/-- `SafeFileEditor.write_lines_safely`: refuse the write when the file
exists and its mtime is strictly newer than the read timestamp, otherwise
atomically replace the contents (the new mtime is the write-time clock
`now`).  Returns the success flag and the resulting file state. -/
def writeLinesSafely (fs : FileState) (lines : List Line) (readTime now : Nat) :
    Bool × FileState :=
  match fs.file with
  | some (_, m) =>
    if readTime < m then (false, fs) else (true, ⟨some (lines, now)⟩)
  | none => (true, ⟨some (lines, now)⟩)

/-- The `ignore_next_change` / `last_modification_time` state owned by
`LedgerFileWatcher`. -/
structure WatcherState where
  ignoreNextChange : Bool
  lastModificationTime : Nat
deriving Repr, DecidableEq

/-- `LedgerFileWatcher.mark_internal_change` (the argument is the file's
current modification time). -/
def markInternalChange (w : WatcherState) (currentMtime : Nat) : WatcherState :=
  { w with ignoreNextChange := true, lastModificationTime := currentMtime }

/-- `LedgerFileEditor.update_postings_status` over the explicit file and
watcher state: read, validate and group, rewrite the buffer, tell the
watcher an internal change is coming, then attempt the optimistic write.
`readNow`/`writeNow` are the wall-clock values at the read and the write. -/
def updatePostingsStatus (fs : FileState) (w : Option WatcherState) (readNow writeNow : Nat)
    (nums : List Nat) (expected newStatus : Line) :
    Bool × FileState × Option WatcherState :=
  if nums.isEmpty then (true, fs, w)
  else
    let (lines, readTime) := readLinesSafely fs readNow
    match updatePostingsPlan lines nums expected newStatus with
    | none => (false, fs, w)
    | some newLines =>
      let w2 := w.map (fun ws => markInternalChange ws (mtimeOf fs))
      let (ok, fs2) := writeLinesSafely fs newLines readTime writeNow
      (ok, fs2, w2)

/-- `LedgerFileEditor.update_posting_status` (single posting line): rewrite
the line; when the rewrite is a no-op, return `False` without writing or
notifying the watcher. -/
def updatePostingStatusOp (fs : FileState) (w : Option WatcherState) (readNow writeNow : Nat)
    (n : Nat) (newStatus : Line) : Bool × FileState × Option WatcherState :=
  let (lines, readTime) := readLinesSafely fs readNow
  if n < 1 || lines.length < n then (false, fs, w)
  else
    let oldLine := lines.getD (n - 1) []
    let newLine := updatePostingLine oldLine newStatus
    if newLine ≠ oldLine then
      let w2 := w.map (fun ws => markInternalChange ws (mtimeOf fs))
      let (ok, fs2) := writeLinesSafely fs (lines.set (n - 1) newLine) readTime writeNow
      (ok, fs2, w2)
    else (false, fs, w)

/-- `LedgerFileEditor.update_transaction_status` (single header line),
analogous to `updatePostingStatusOp`. -/
def updateTransactionStatusOp (fs : FileState) (w : Option WatcherState) (readNow writeNow : Nat)
    (n : Nat) (newStatus : Line) : Bool × FileState × Option WatcherState :=
  let (lines, readTime) := readLinesSafely fs readNow
  if n < 1 || lines.length < n then (false, fs, w)
  else
    let oldLine := lines.getD (n - 1) []
    let newLine := updateTransactionLine oldLine newStatus
    if newLine ≠ oldLine then
      let w2 := w.map (fun ws => markInternalChange ws (mtimeOf fs))
      let (ok, fs2) := writeLinesSafely fs (lines.set (n - 1) newLine) readTime writeNow
      (ok, fs2, w2)
    else (false, fs, w)

/-- The three legal status markers. -/
def statusMarkers : List Line := [[], ['!'], ['*']]

/-- A line as produced by Python `readlines()`: a newline occurs only as the
final character. -/
def nlOnlyAtEnd (l : Line) : Bool := !(rstripNl l).contains '\n'

/-- A non-blank line whose content, after removal of its explicit status
marker (if any), does not itself begin with a marker character; clearing
such a line genuinely leaves it unmarked.  (Blank lines satisfy this
trivially.) -/
def noHiddenMarker (l : Line) : Bool :=
  let stripped := lstrip (rstripNl l)
  let stripped2 :=
    match stripped with
    | c :: t => if c = '!' || c = '*' then lstrip t else stripped
    | [] => ([] : Line)
  match stripped2 with
  | c :: _ => !(c = '!' || c = '*')
  | [] => true

/-- A line that either is not a parseable transaction header, or whose
description group does not begin with a marker character (so that
clearing or setting the header marker round-trips through the header
regex). -/
def headerDescClean (l : Line) : Bool :=
  match matchTransactionHeader (pstrip l) with
  | some (_, _, desc) =>
    match desc with
    | c :: _ => !(c = '!' || c = '*')
    | [] => true
  | none => true

/-- A buffer of benign physical lines: each line keeps newlines at the end
only (as `readlines()` guarantees), hides no second status marker behind
its first, and has a header description that does not start with a marker
character. -/
def cleanLine (l : Line) : Bool :=
  nlOnlyAtEnd l && noHiddenMarker l && headerDescClean l

/-- The buffer a read of the file produces (empty when the file is absent):
the first component of `readLinesSafely`. -/
def linesOf (fs : FileState) : List Line :=
  match fs.file with
  | some (c, _) => c
  | none => []

/-- Sample line `"2024-01-01 d\n"`. -/
def sampleHeader : Line :=
  ['2', '0', '2', '4', '-', '0', '1', '-', '0', '1', ' ', 'd', '\n']

/-- Sample line `"  a\n"`. -/
def samplePosting : Line := [' ', ' ', 'a', '\n']

/-- Sample line `"  ! a\n"`. -/
def samplePendingPosting : Line := [' ', ' ', '!', ' ', 'a', '\n']

/-- The buffer of the C8 counterexample:
`["2024-01-01 d", "  a1", "x", "  ! a2"]` — the targeted posting on line 4
resolves backward to the header on line 1, but the forward enumeration of
that transaction stops at the non-indented line 3 and so does not contain
line 4. -/
def c8buffer : List Line :=
  [['2', '0', '2', '4', '-', '0', '1', '-', '0', '1', ' ', 'd'],
   [' ', ' ', 'a', '1'],
   ['x'],
   [' ', ' ', '!', ' ', 'a', '2']]

/-- A transaction with two pending postings:
`["2024-01-01 T", "  ! A", "  ! B"]`. -/
def pairBuffer : List Line :=
  [['2', '0', '2', '4', '-', '0', '1', '-', '0', '1', ' ', 'T'],
   [' ', ' ', '!', ' ', 'A'],
   [' ', ' ', '!', ' ', 'B']]

/-- The `stripped` local of `_update_posting_line` after optional marker
removal: the content of a posting line with indentation and explicit
marker (plus the whitespace after it) removed. -/
def postingContent (l : Line) : Line :=
  match lstrip (rstripNl l) with
  | c :: t => if c = '!' || c = '*' then lstrip t else c :: t
  | [] => []

/-- The `has_existing_status` local of `_update_posting_line`: whether the
newline-stripped line starts (after indentation) with `!` or `*`. -/
def hasExplicitMarker (l : Line) : Bool :=
  match lstrip (rstripNl l) with
  | c :: _ => c = '!' || c = '*'
  | [] => false

/-- The first 0-based index `d ≥ i` holding a transaction-header line,
scanning `rest = drop i` of the buffer; `i + rest.length` when none. -/
def nextDateFrom : List Line → Nat → Nat
  | [], i => i
  | l :: rest, i => if isDateStart (pstrip l) then i else nextDateFrom rest (i + 1)

/-- The first 0-based header index at or after `t` (the buffer length when
there is none): an upper bound for the forward posting scan from a header
at 0-based index `t - 1`. -/
def nextDate (ls : List Line) (t : Nat) : Nat := nextDateFrom (ls.drop t) t

/-- The buffer of the C3 counterexample:
`["2024-01-01 d\n", "  ! * Assets\n"]` — a posting whose content itself
begins with a second marker character. -/
def c3buffer : List Line :=
  [['2', '0', '2', '4', '-', '0', '1', '-', '0', '1', ' ', 'd', '\n'],
   [' ', ' ', '!', ' ', '*', ' ', 'A', 's', 's', 'e', 't', 's', '\n']]

/-- The normal form asserted for one affected transaction after a batch:
in the collapse branch the header carries the new status and every
enumerated posting has no explicit marker; otherwise the header is
unmarked and every enumerated posting carries exactly its planned final
status. -/
def normalFormAt (final : List Line) (s : Line) (tf : Nat × List (Nat × Line)) : Prop :=
  if (allSameStatus (tf.2.map Prod.snd) && !(tf.2.map Prod.fst).isEmpty) = true then
    transactionHeaderStatus (final.getD (tf.1 - 1) []) = s ∧
      ∀ pr ∈ tf.2, extractPostingStatus (final.getD (pr.1 - 1) []) = []
  else
    transactionHeaderStatus (final.getD (tf.1 - 1) []) = [] ∧
      ∀ pr ∈ tf.2, extractPostingStatus (final.getD (pr.1 - 1) []) = pr.2

/-! ### Helper lemmas about the Python string primitives -/

lemma dropWhile_sub (p q : Char → Bool) (h : ∀ c, p c = true → q c = true) :
    ∀ l : Line, (l.dropWhile p).dropWhile q = l.dropWhile q
  | [] => rfl
  | a :: t => by
    by_cases hp : p a = true
    · rw [List.dropWhile_cons_of_pos hp, dropWhile_sub p q h t,
        List.dropWhile_cons_of_pos (h a hp)]
    · rw [List.dropWhile_cons_of_neg hp]

lemma rev_dropWhile_all (p : Char → Bool) (x : Line) (h : ∀ c ∈ x, p c = true) :
    (x.reverse.dropWhile p).reverse = [] := by
  have : x.reverse.dropWhile p = [] :=
    List.dropWhile_eq_nil_iff.2 (fun c hc => h c (List.mem_reverse.1 hc))
  simp [this]

lemma rev_dropWhile_append (p : Char → Bool) (x y : Line)
    (h : (y.reverse.dropWhile p).reverse ≠ []) :
    ((x ++ y).reverse.dropWhile p).reverse = x ++ (y.reverse.dropWhile p).reverse := by
  have hne : y.reverse.dropWhile p ≠ [] := by
    intro he; exact h (by simp [he])
  rw [List.reverse_append, List.dropWhile_append, if_neg (by simpa using hne),
    List.reverse_append]
  simp

lemma rev_dropWhile_cons_ne (p : Char → Bool) (a : Char) (t : Line)
    (h : (t.reverse.dropWhile p).reverse ≠ []) :
    (((a :: t).reverse.dropWhile p).reverse) = a :: (t.reverse.dropWhile p).reverse := by
  have := rev_dropWhile_append p [a] t h
  simpa using this

lemma rev_dropWhile_cons_neg (p : Char → Bool) (a : Char) (t : Line) (h : p a = false) :
    (((a :: t).reverse.dropWhile p).reverse) = a :: (t.reverse.dropWhile p).reverse := by
  by_cases ht : (t.reverse.dropWhile p).reverse = []
  · have hrev : t.reverse.dropWhile p = [] := by
      have := congrArg List.reverse ht; simpa using this
    have hstep : (a :: t).reverse.dropWhile p = [a] := by
      rw [List.reverse_cons, List.dropWhile_append, if_pos (by simp [hrev])]
      simp [List.dropWhile_cons, h]
    rw [hstep, ht]
    simp
  · exact rev_dropWhile_cons_ne p a t ht

lemma rstripWs_nil : rstripWs [] = [] := rfl

lemma rstripWs_all (x : Line) (h : ∀ c ∈ x, isWs c = true) : rstripWs x = [] :=
  rev_dropWhile_all isWs x h

lemma rstripWs_append (x y : Line) (h : rstripWs y ≠ []) :
    rstripWs (x ++ y) = x ++ rstripWs y :=
  rev_dropWhile_append isWs x y h

lemma rstripWs_cons_ne (a : Char) (t : Line) (h : rstripWs t ≠ []) :
    rstripWs (a :: t) = a :: rstripWs t :=
  rev_dropWhile_cons_ne isWs a t h

lemma rstripWs_cons_neg (a : Char) (t : Line) (h : isWs a = false) :
    rstripWs (a :: t) = a :: rstripWs t :=
  rev_dropWhile_cons_neg isWs a t h

lemma rstripWs_eq_nil_iff (x : Line) : rstripWs x = [] ↔ ∀ c ∈ x, isWs c = true := by
  constructor
  · intro h
    have : x.reverse.dropWhile isWs = [] := by
      have := congrArg List.reverse h; simpa [rstripWs] using this
    intro c hc
    exact List.dropWhile_eq_nil_iff.1 this c (List.mem_reverse.2 hc)
  · exact rstripWs_all x

lemma lstrip_nil : lstrip [] = [] := rfl

lemma lstrip_cons_pos (a : Char) (t : Line) (h : isWs a = true) :
    lstrip (a :: t) = lstrip t :=
  List.dropWhile_cons_of_pos h

lemma lstrip_cons_neg (a : Char) (t : Line) (h : isWs a = false) :
    lstrip (a :: t) = a :: t :=
  List.dropWhile_cons_of_neg (by simp [h])

lemma lstrip_all (a : Line) (h : ∀ c ∈ a, isWs c = true) : lstrip a = [] :=
  List.dropWhile_eq_nil_iff.2 h

lemma lstrip_append_all (a b : Line) (h : ∀ c ∈ a, isWs c = true) :
    lstrip (a ++ b) = lstrip b := by
  have ha : List.dropWhile isWs a = [] := List.dropWhile_eq_nil_iff.2 h
  unfold lstrip
  rw [List.dropWhile_append, if_pos (by simp [ha])]

lemma lstrip_append_ne (a b : Line) (h : lstrip a ≠ []) :
    lstrip (a ++ b) = lstrip a ++ b := by
  unfold lstrip at h ⊢
  rw [List.dropWhile_append, if_neg (by simpa using h)]

lemma lstrip_idem (l : Line) : lstrip (lstrip l) = lstrip l :=
  dropWhile_sub isWs isWs (fun _ h => h) l

lemma lstrip_head_not_ws (l : Line) (c : Char) (r : Line) (h : lstrip l = c :: r) :
    isWs c = false := by
  induction l with
  | nil => simp [lstrip] at h
  | cons a t ih =>
    by_cases ha : isWs a = true
    · exact ih (by rwa [lstrip_cons_pos a t ha] at h)
    · rw [lstrip_cons_neg a t (by simpa using ha)] at h
      cases h
      simpa using ha

lemma lstrip_eq_nil_iff (x : Line) : lstrip x = [] ↔ ∀ c ∈ x, isWs c = true :=
  List.dropWhile_eq_nil_iff

lemma rstripNl_nil : rstripNl [] = [] := rfl

lemma rstripNl_append (x y : Line) (h : rstripNl y ≠ []) :
    rstripNl (x ++ y) = x ++ rstripNl y :=
  rev_dropWhile_append _ x y h

lemma rstripNl_cons_ne (a : Char) (t : Line) (h : rstripNl t ≠ []) :
    rstripNl (a :: t) = a :: rstripNl t :=
  rev_dropWhile_cons_ne _ a t h

lemma rstripNl_cons_neg (a : Char) (t : Line) (h : a ≠ '\n') :
    rstripNl (a :: t) = a :: rstripNl t :=
  rev_dropWhile_cons_neg _ a t (by simp [h])

lemma rstripNl_all (x : Line) (h : ∀ c ∈ x, c = '\n') : rstripNl x = [] :=
  rev_dropWhile_all _ x (by intro c hc; simp [h c hc])

lemma rstripNl_eq_nil_iff (x : Line) : rstripNl x = [] ↔ ∀ c ∈ x, c = '\n' := by
  constructor
  · intro h
    have hrev : x.reverse.dropWhile (fun c => c = '\n') = [] := by
      have := congrArg List.reverse h; simpa [rstripNl] using this
    intro c hc
    simpa using List.dropWhile_eq_nil_iff.1 hrev c (List.mem_reverse.2 hc)
  · exact rstripNl_all x

lemma rstripWs_rstripNl (x : Line) : rstripWs (rstripNl x) = rstripWs x := by
  unfold rstripWs rstripNl
  rw [List.reverse_reverse]
  congr 1
  exact dropWhile_sub (fun c => c = '\n') isWs (by intro c hc; simp_all [isWs]) x.reverse

lemma lstrip_rstripWs_comm (x : Line) : rstripWs (lstrip x) = lstrip (rstripWs x) := by
  induction x with
  | nil => rfl
  | cons a t ih =>
    by_cases ha : isWs a = true
    · rw [lstrip_cons_pos a t ha]
      by_cases hr : rstripWs t = []
      · have hall : ∀ c ∈ t, isWs c = true := (rstripWs_eq_nil_iff t).1 hr
        have h1 : rstripWs (a :: t) = [] := by
          apply rstripWs_all
          intro c hc
          rcases List.mem_cons.1 hc with rfl | hct
          · exact ha
          · exact hall c hct
        rw [ih, hr, h1]
      · rw [rstripWs_cons_ne a t hr, lstrip_cons_pos a _ ha, ih]
    · have ha2 : isWs a = false := by simpa using ha
      rw [lstrip_cons_neg a t ha2, rstripWs_cons_neg a t ha2,
        lstrip_cons_neg a _ ha2]

lemma pstrip_rstripNl (l : Line) : pstrip (rstripNl l) = pstrip l := by
  unfold pstrip
  rw [lstrip_rstripWs_comm, lstrip_rstripWs_comm, rstripWs_rstripNl]

lemma pstrip_eq_nil_iff (x : Line) : pstrip x = [] ↔ ∀ c ∈ x, isWs c = true := by
  unfold pstrip
  constructor
  · intro h c hc
    by_cases hl : lstrip x = []
    · exact (lstrip_eq_nil_iff x).1 hl c hc
    · rcases List.exists_cons_of_ne_nil hl with ⟨d, r, hdr⟩
      have hd : isWs d = false := lstrip_head_not_ws x d r hdr
      rw [hdr] at h
      have := (rstripWs_eq_nil_iff _).1 h d (by simp)
      rw [this] at hd
      cases hd
  · intro h
    rw [lstrip_all x h, rstripWs_nil]

lemma readLinesSafely_eq (fs : FileState) (now : Nat) :
    readLinesSafely fs now = (linesOf fs, now) := by
  unfold readLinesSafely linesOf
  cases h : fs.file with
  | some c => cases c; rfl
  | none => rfl

/-! ### Claim theorems: simple cases -/

/-- C10: a blank or whitespace-only input line is returned byte-for-byte
unchanged by the posting-line rewrite `_update_posting_line`, for every
`new_status` value: a marker is never inserted into a blank line. -/
theorem c10_blank_posting_line_unchanged (l : Line) (s : Line) (h : pstrip l = []) :
    updatePostingLine l s = l := by
  unfold updatePostingLine
  rw [if_pos h]

/-- Witness for C10 at the whitespace-only line `"  \t\n"` and status `"!"`. -/
theorem c10_blank_posting_line_unchanged_witness :
    pstrip [' ', ' ', '\t', '\n'] = [] ∧
      updatePostingLine [' ', ' ', '\t', '\n'] ['!'] = [' ', ' ', '\t', '\n'] :=
  ⟨by decide, c10_blank_posting_line_unchanged [' ', ' ', '\t', '\n'] ['!'] (by decide)⟩

/-- C2: when the target file exists and its modification time is strictly
greater than `read_time`, `write_lines_safely` returns `False` and leaves
the file state (the external writer's contents) untouched; the new lines
are not written. -/
theorem c2_stale_write_refused (fs : FileState) (content : List Line) (m : Nat)
    (lines : List Line) (readTime now : Nat)
    (hfile : fs.file = some (content, m)) (hrace : readTime < m) :
    writeLinesSafely fs lines readTime now = (false, fs) := by
  unfold writeLinesSafely
  rw [hfile]
  simp [hrace]

/-- Witness for C2: a file written externally at time 10, a read at time 5. -/
theorem c2_stale_write_refused_witness :
    (⟨some ([sampleHeader], 10)⟩ : FileState).file = some ([sampleHeader], 10) ∧
      (5 : Nat) < 10 ∧
      writeLinesSafely ⟨some ([sampleHeader], 10)⟩ [samplePosting] 5 7
        = (false, ⟨some ([sampleHeader], 10)⟩) :=
  ⟨rfl, by decide,
    c2_stale_write_refused ⟨some ([sampleHeader], 10)⟩ [sampleHeader] 10
      [samplePosting] 5 7 rfl (by decide)⟩

/-- C9: when the rewritten line text equals the current line text, both
single-line operations (`update_posting_status` and
`update_transaction_status`) return `False` and perform no write. -/
theorem c9_noop_edit_rejected (fs : FileState) (w : Option WatcherState)
    (rn wn n : Nat) (s : Line) (h1 : 1 ≤ n) (h2 : n ≤ (linesOf fs).length) :
    (updatePostingLine ((linesOf fs).getD (n - 1) []) s = (linesOf fs).getD (n - 1) [] →
      updatePostingStatusOp fs w rn wn n s = (false, fs, w)) ∧
    (updateTransactionLine ((linesOf fs).getD (n - 1) []) s = (linesOf fs).getD (n - 1) [] →
      updateTransactionStatusOp fs w rn wn n s = (false, fs, w)) := by
  have hn1 : ¬ (n < 1) := by omega
  have hn2 : ¬ ((linesOf fs).length < n) := by omega
  constructor
  · intro hp
    unfold updatePostingStatusOp
    rw [readLinesSafely_eq]
    have hp2 : updatePostingLine ((linesOf fs)[n - 1]?.getD []) s
        = (linesOf fs)[n - 1]?.getD [] := by
      simpa [List.getD_eq_getElem?_getD] using hp
    simp [hn1, hn2, hp2]
  · intro hp
    unfold updateTransactionStatusOp
    rw [readLinesSafely_eq]
    have hp2 : updateTransactionLine ((linesOf fs)[n - 1]?.getD []) s
        = (linesOf fs)[n - 1]?.getD [] := by
      simpa [List.getD_eq_getElem?_getD] using hp
    simp [hn1, hn2, hp2]

/-- Witness for C9: clearing an unmarked posting line and rewriting an
unparseable "header" are both no-ops and are rejected without a write. -/
theorem c9_noop_edit_rejected_witness :
    updatePostingStatusOp ⟨some ([sampleHeader, samplePosting], 3)⟩ none 5 6 2 []
        = (false, ⟨some ([sampleHeader, samplePosting], 3)⟩, none) ∧
      updateTransactionStatusOp ⟨some ([sampleHeader, samplePosting], 3)⟩ none 5 6 2 []
        = (false, ⟨some ([sampleHeader, samplePosting], 3)⟩, none) :=
  ⟨(c9_noop_edit_rejected ⟨some ([sampleHeader, samplePosting], 3)⟩ none 5 6 2 []
      (by decide) (by decide)).1 (by decide),
    (c9_noop_edit_rejected ⟨some ([sampleHeader, samplePosting], 3)⟩ none 5 6 2 []
      (by decide) (by decide)).2 (by decide)⟩

/-- C5 counterexample: `_update_posting_line` is NOT idempotent for
`new_status = ""` on the line `"  ! * a"`: the first application exposes the
second marker (`"  * a"`), the second application removes it (`"  a"`). -/
theorem c5_counterexample :
    updatePostingLine (updatePostingLine [' ', ' ', '!', ' ', '*', ' ', 'a'] []) []
      ≠ updatePostingLine [' ', ' ', '!', ' ', '*', ' ', 'a'] [] := by decide

/-- C4 counterexample: in a run of `update_postings_status` whose write is
refused by the mtime check (file modified at time 10, read at time 5), the
result is `False` and the file is unchanged, yet the watcher's
"mark internal change" hook HAS been invoked (`ignoreNextChange` flipped
from `false` to `true`): the hook is called before the write attempt, not
only after a successful write. -/
theorem c4_counterexample :
    updatePostingsStatus ⟨some ([sampleHeader, samplePendingPosting], 10)⟩
        (some ⟨false, 0⟩) 5 6 [2] ['!'] ['*']
      = (false, ⟨some ([sampleHeader, samplePendingPosting], 10)⟩, some ⟨true, 10⟩) := by
  decide

/-- C4 (amended): with a watcher attached, the "mark internal change" hook
is invoked in exactly those executions of `update_postings_status` (with a
non-empty batch) in which the validation-and-rewrite pipeline succeeds —
the invocation happens before the write attempt and therefore also when
the write is subsequently refused; when validation fails the watcher is
untouched. -/
theorem c4_amended_hook_iff_plan (fs : FileState) (w : Option WatcherState)
    (rn wn : Nat) (nums : List Nat) (e s : Line) (hne : nums ≠ []) :
    (updatePostingsStatus fs w rn wn nums e s).2.2
      = match updatePostingsPlan (linesOf fs) nums e s with
        | none => w
        | some _ => w.map (fun ws => markInternalChange ws (mtimeOf fs)) := by
  unfold updatePostingsStatus
  rw [readLinesSafely_eq]
  have hni : nums.isEmpty = false := by
    cases nums with
    | nil => exact absurd rfl hne
    | cons a t => rfl
  rw [hni]
  simp only [Bool.false_eq_true, if_false]
  cases hplan : updatePostingsPlan (linesOf fs) nums e s with
  | none => simp
  | some nl =>
    cases hw : writeLinesSafely fs nl rn wn with
    | mk ok fs2 => simp [hw]

lemma allSameStatus_mem_eq (l : List Line) (h : allSameStatus l = true) :
    ∀ a ∈ l, ∀ b ∈ l, a = b := by
  cases l with
  | nil => intro a ha; exact absurd ha (by simp)
  | cons x rest =>
    have hall : ∀ c ∈ rest, c = x := by
      simpa [allSameStatus] using h
    intro a ha b hb
    rcases List.mem_cons.1 ha with rfl | ha2
    · rcases List.mem_cons.1 hb with rfl | hb2
      · rfl
      · exact (hall b hb2).symm
    · rcases List.mem_cons.1 hb with rfl | hb2
      · exact hall a ha2
      · rw [hall a ha2, hall b hb2]

/-- C8 counterexample: on `c8buffer` with targets `[4]`, expected `"!"`,
new status `"*"`, the batch validates and succeeds, the collapse branch is
chosen for transaction 1 (all planned final statuses identical, posting
list non-empty), yet the unique common final status is `""`, not the
`new_status` `"*"` that is written into the header. -/
theorem c8_counterexample :
    findTransactionForPosting c8buffer 4 = some 1 ∧
      (updatePostingsPlan c8buffer [4] ['!'] ['*']).isSome = true ∧
      allSameStatus ((finalStatusesOf c8buffer 1 [4] ['*']).map Prod.snd) = true ∧
      finalStatusesOf c8buffer 1 [4] ['*'] ≠ [] ∧
      (finalStatusesOf c8buffer 1 [4] ['*']).map Prod.snd = [[]] ∧
      ([] : Line) ≠ ['*'] := by decide

/-- C8 (amended): whenever the collapse branch applies to a transaction
(all planned final statuses identical and the posting list non-empty) AND
at least one targeted posting actually belongs to the transaction's
forward enumeration, the unique common final status equals `new_status`,
so the header marker written by the collapse branch represents every
posting's final status. -/
theorem c8_amended_collapse_writes_common_status (lines : List Line) (t : Nat)
    (targets : List Nat) (s : Line) (p : Nat) (hp : p ∈ targets)
    (hpin : p ∈ findAllPostingsForTransaction lines t)
    (hall : allSameStatus ((finalStatusesOf lines t targets s).map Prod.snd) = true) :
    ∀ q ∈ (finalStatusesOf lines t targets s).map Prod.snd, q = s := by
  have hs : s ∈ (finalStatusesOf lines t targets s).map Prod.snd := by
    have : (p, s) ∈ finalStatusesOf lines t targets s := by
      unfold finalStatusesOf
      refine List.mem_map.2 ⟨p, hpin, ?_⟩
      simp [hp]
    exact List.mem_map.2 ⟨(p, s), this, rfl⟩
  intro q hq
  exact allSameStatus_mem_eq _ hall q hq s hs

/-- Witness for the amended C8 on a fully targeted two-posting
transaction. -/
theorem c8_amended_collapse_writes_common_status_witness :
    (['*'] : Line) ∈ (finalStatusesOf pairBuffer 1 [2, 3] ['*']).map Prod.snd ∧
      (['*'] : Line) = ['*'] :=
  ⟨by decide, c8_amended_collapse_writes_common_status pairBuffer 1 [2, 3] ['*'] 2
    (by decide) (by decide) (by decide) ['*'] (by decide)⟩

lemma validateTarget_spec (lines : List Line) (e : Line) (n : Nat)
    (h : validateTarget lines e n = true) :
    1 ≤ n ∧ n ≤ lines.length ∧
      isValidPostingLine (lines.getD (n - 1) []) = true ∧
      ∃ t, findTransactionForPosting lines n = some t ∧
        getEffectivePostingStatus lines n t = e := by
  unfold validateTarget at h
  by_cases h1 : (n < 1 || lines.length < n) = true
  · rw [if_pos h1] at h
    cases h
  · rw [if_neg h1] at h
    have hrange : 1 ≤ n ∧ n ≤ lines.length := by
      rcases Bool.or_eq_false_iff.1 (Bool.eq_false_iff.2 h1) with ⟨ha, hb⟩
      have ha2 : ¬ (n < 1) := of_decide_eq_false ha
      have hb2 : ¬ (lines.length < n) := of_decide_eq_false hb
      omega
    by_cases h2 : isValidPostingLine (lines.getD (n - 1) []) = true
    · rw [if_neg (by rw [h2]; simp)] at h
      refine ⟨hrange.1, hrange.2, h2, ?_⟩
      cases hf : findTransactionForPosting lines n with
      | none => rw [hf] at h; cases h
      | some t =>
        rw [hf] at h
        exact ⟨t, rfl, by simpa using h⟩
    · rw [if_pos (by rw [Bool.eq_false_iff.2 h2]; simp)] at h
      cases h

lemma plan_none_of_validate_false (lines : List Line) (nums : List Nat)
    (e s : Line) (h : nums.all (validateTarget lines e) = false) :
    updatePostingsPlan lines nums e s = none := by
  unfold updatePostingsPlan
  rw [if_pos (by simp [h])]

lemma updatePostingsStatus_of_plan_none (fs : FileState) (w : Option WatcherState)
    (rn wn : Nat) (nums : List Nat) (e s : Line) (hne : nums ≠ [])
    (h : updatePostingsPlan (linesOf fs) nums e s = none) :
    updatePostingsStatus fs w rn wn nums e s = (false, fs, w) := by
  unfold updatePostingsStatus
  rw [readLinesSafely_eq]
  have hni : nums.isEmpty = false := by
    cases nums with
    | nil => exact absurd rfl hne
    | cons a t => rfl
  rw [hni]
  simp only [Bool.false_eq_true, if_false, h]

lemma updatePostingsStatus_fails_of_bad_target (fs : FileState) (w : Option WatcherState)
    (rn wn : Nat) (nums : List Nat) (e s : Line) (n : Nat)
    (hmem : n ∈ nums)
    (hbad : n < 1 ∨ (linesOf fs).length < n ∨
      isValidPostingLine ((linesOf fs).getD (n - 1) []) = false ∨
      findTransactionForPosting (linesOf fs) n = none ∨
      ∃ t, findTransactionForPosting (linesOf fs) n = some t ∧
        getEffectivePostingStatus (linesOf fs) n t ≠ e) :
    updatePostingsStatus fs w rn wn nums e s = (false, fs, w) := by
  have hne : nums ≠ [] := by
    intro hx; rw [hx] at hmem; exact absurd hmem (by simp)
  apply updatePostingsStatus_of_plan_none fs w rn wn nums e s hne
  apply plan_none_of_validate_false
  rw [List.all_eq_false]
  refine ⟨n, hmem, ?_⟩
  intro htrue
  obtain ⟨h1, h2, h3, t, ht, heff⟩ := validateTarget_spec (linesOf fs) e n htrue
  rcases hbad with hb | hb | hb | hb | hb
  · omega
  · omega
  · rw [h3] at hb; cases hb
  · rw [ht] at hb; cases hb
  · obtain ⟨t', ht', hne'⟩ := hb
    rw [ht] at ht'
    cases ht'
    exact hne' heff

/-- C1: a non-empty `update_postings_status` batch containing a single
target that is out of range, not a valid posting line, has no resolvable
owning transaction, or whose effective status differs from
`expected_current_status`, returns `False` with the file state (and the
watcher) completely untouched: no write of any kind. -/
theorem c1_batch_all_or_nothing (fs : FileState) (w : Option WatcherState)
    (rn wn : Nat) (nums : List Nat) (e s : Line) (n : Nat)
    (hmem : n ∈ nums)
    (hbad : n < 1 ∨ (linesOf fs).length < n ∨
      isValidPostingLine ((linesOf fs).getD (n - 1) []) = false ∨
      findTransactionForPosting (linesOf fs) n = none ∨
      ∃ t, findTransactionForPosting (linesOf fs) n = some t ∧
        getEffectivePostingStatus (linesOf fs) n t ≠ e) :
    updatePostingsStatus fs w rn wn nums e s = (false, fs, w) :=
  updatePostingsStatus_fails_of_bad_target fs w rn wn nums e s n hmem hbad

/-- Witness for C1: the batch `[2, 3]` where line 3 is out of range. -/
theorem c1_batch_all_or_nothing_witness :
    updatePostingsStatus ⟨some ([sampleHeader, samplePendingPosting], 3)⟩ none 5 6
        [2, 3] ['!'] ['*']
      = (false, ⟨some ([sampleHeader, samplePendingPosting], 3)⟩, none) :=
  c1_batch_all_or_nothing ⟨some ([sampleHeader, samplePendingPosting], 3)⟩ none 5 6
    [2, 3] ['!'] ['*'] 3 (by decide)
    (Or.inr (Or.inl (by decide)))

lemma findTransAux_none_of_blank (lines : List Line) (k : Nat)
    (hblank : pstrip (lines.getD k []) = []) :
    ∀ m, k < m →
      (∀ j, k < j → j < m →
        isDateStart (pstrip (lines.getD j [])) = false ∧ pstrip (lines.getD j []) ≠ []) →
      findTransAux lines m = none := by
  intro m
  induction m with
  | zero => intro h; omega
  | succ i ih =>
    intro hkm hj
    unfold findTransAux
    by_cases hik : i = k
    · subst hik
      rw [if_neg (by rw [hblank]; simp [isDateStart]), if_pos hblank]
    · have hki : k < i := by omega
      obtain ⟨hd, hb⟩ := hj i hki (by omega)
      rw [if_neg (by rw [hd]; simp), if_neg hb]
      exact ih hki (fun j h1 h2 => hj j h1 (by omega))

/-- C6: if the backward owning-transaction search from a (1-based) posting
line number meets a blank line (0-based index `k`) before any
transaction-header line, it resolves to `none`, and an
`update_postings_status` batch targeting that posting returns `False` with
the file and watcher untouched. -/
theorem c6_blank_line_aborts_backward_search (fs : FileState) (w : Option WatcherState)
    (rn wn : Nat) (nums : List Nat) (e s : Line) (n k : Nat)
    (hk : k + 1 < n)
    (hblank : pstrip ((linesOf fs).getD k []) = [])
    (habove : ∀ j, k < j → j + 1 < n →
      isDateStart (pstrip ((linesOf fs).getD j [])) = false ∧
        pstrip ((linesOf fs).getD j []) ≠ []) :
    findTransactionForPosting (linesOf fs) n = none ∧
      (n ∈ nums → updatePostingsStatus fs w rn wn nums e s = (false, fs, w)) := by
  have hnone : findTransactionForPosting (linesOf fs) n = none := by
    unfold findTransactionForPosting
    exact findTransAux_none_of_blank (linesOf fs) k hblank (n - 1) (by omega)
      (fun j h1 h2 => habove j h1 (by omega))
  refine ⟨hnone, fun hmem => ?_⟩
  exact updatePostingsStatus_fails_of_bad_target fs w rn wn nums e s n hmem
    (Or.inr (Or.inr (Or.inr (Or.inl hnone))))

/-- Witness for C6 on `["2024-01-01 d\n", "", "  ! a\n"]`, posting line 3,
blank line at 0-based index 1. -/
theorem c6_blank_line_aborts_backward_search_witness :
    findTransactionForPosting (linesOf ⟨some ([sampleHeader, [], samplePendingPosting], 3)⟩) 3
        = none ∧
      (3 ∈ [3] →
        updatePostingsStatus ⟨some ([sampleHeader, [], samplePendingPosting], 3)⟩ none 5 6
            [3] ['!'] ['*']
          = (false, ⟨some ([sampleHeader, [], samplePendingPosting], 3)⟩, none)) :=
  c6_blank_line_aborts_backward_search ⟨some ([sampleHeader, [], samplePendingPosting], 3)⟩
    none 5 6 [3] ['!'] ['*'] 3 1 (by decide) (by decide)
    (fun j h1 h2 => absurd h2 (by omega))

/-! ### Line-surgery lemmas for the posting rewrite -/

lemma head?_dropWhile_false (p : Char → Bool) (l : Line) (c : Char)
    (h : (l.dropWhile p).head? = some c) : p c = false := by
  induction l with
  | nil => simp at h
  | cons a t ih =>
    by_cases hp : p a = true
    · rw [List.dropWhile_cons_of_pos hp] at h
      exact ih h
    · rw [List.dropWhile_cons_of_neg hp] at h
      have : a = c := by simpa using h
      subst this
      simpa using hp

lemma rdrop_eq_self (p : Char → Bool) (x : Line) (c : Char)
    (h : x.getLast? = some c) (hc : p c = false) :
    (x.reverse.dropWhile p).reverse = x := by
  have hrev : x.reverse.head? = some c := by rw [List.head?_reverse]; exact h
  have hdw : x.reverse.dropWhile p = x.reverse := by
    cases hx : x.reverse with
    | nil => rfl
    | cons d tr =>
      have hd : d = c := by rw [hx] at hrev; simpa using hrev
      subst hd
      exact List.dropWhile_cons_of_neg (by simp [hc])
  rw [hdw, List.reverse_reverse]

lemma rstripNl_eq_self_of_last (x : Line) (c : Char)
    (h : x.getLast? = some c) (hc : c ≠ '\n') : rstripNl x = x :=
  rdrop_eq_self _ x c h (by simp [hc])

lemma rstripNl_append_nl (x : Line) : rstripNl (x ++ ['\n']) = rstripNl x := by
  unfold rstripNl
  rw [List.reverse_append]
  simp [List.dropWhile_cons_of_pos]

lemma getLast?_rstripNl_ne (l : Line) (c : Char)
    (h : (rstripNl l).getLast? = some c) : c ≠ '\n' := by
  unfold rstripNl at h
  rw [List.getLast?_reverse] at h
  have := head?_dropWhile_false _ _ _ h
  simpa using this

lemma suffix_getLast? (x v : Line) (hsuf : v <:+ x) (hv : v ≠ []) :
    v.getLast? = x.getLast? := by
  obtain ⟨u, rfl⟩ := hsuf
  exact (List.getLast?_append_of_ne_nil u hv).symm

lemma lstrip_tail_lstrip_suffix (x : Line) : lstrip ((lstrip x).tail) <:+ x := by
  calc lstrip ((lstrip x).tail) <:+ (lstrip x).tail := List.dropWhile_suffix isWs
  _ <:+ lstrip x := List.tail_suffix _
  _ <:+ x := List.dropWhile_suffix isWs

lemma takeWhile_ws_append (a : Line) (c : Char) (b : Line)
    (h : ∀ d ∈ a, isWs d = true) (hc : isWs c = false) :
    (a ++ c :: b).takeWhile isWs = a := by
  induction a with
  | nil =>
    rw [List.nil_append]
    exact List.takeWhile_cons_of_neg (by simp [hc])
  | cons d t ih =>
    rw [List.cons_append, List.takeWhile_cons_of_pos (h d (by simp)),
      ih (fun x hx => h x (List.mem_cons_of_mem _ hx))]

lemma takeWhile_ws_of_all (a : Line) (h : ∀ d ∈ a, isWs d = true) :
    a.takeWhile isWs = a := by
  induction a with
  | nil => rfl
  | cons d t ih =>
    rw [List.takeWhile_cons_of_pos (h d (by simp)),
      ih (fun x hx => h x (List.mem_cons_of_mem _ hx))]

lemma lstrip_rstripNl_ne (l : Line) (h : pstrip l ≠ []) : lstrip (rstripNl l) ≠ [] := by
  intro he
  apply h
  rw [← pstrip_rstripNl l]
  unfold pstrip
  rw [he, rstripWs_nil]

lemma updatePostingLine_set (l s : Line) (hns : ¬ pstrip l = []) (hs : s ≠ []) :
    updatePostingLine l s =
      (rstripNl l).takeWhile isWs ++ s ++ [' '] ++ postingContent l ++
        (if endsWithNl l then ['\n'] else []) := by
  unfold updatePostingLine
  rw [if_neg hns]
  cases hst : lstrip (rstripNl l) with
  | nil => exact absurd hst (lstrip_rstripNl_ne l hns)
  | cons c t =>
    by_cases hm : (c = '!' || c = '*') = true
    · by_cases hnl : endsWithNl l = true <;>
        simp [hst, hm, postingContent, hs, hnl, List.append_assoc]
    · by_cases hnl : endsWithNl l = true <;>
        simp [hst, hm, postingContent, hs, hnl, List.append_assoc]

lemma updatePostingLine_clear_marked (l : Line) (hns : ¬ pstrip l = [])
    (hm : hasExplicitMarker l = true) :
    updatePostingLine l [] =
      (rstripNl l).takeWhile isWs ++ postingContent l ++
        (if endsWithNl l then ['\n'] else []) := by
  unfold updatePostingLine
  rw [if_neg hns]
  cases hst : lstrip (rstripNl l) with
  | nil => exact absurd hst (lstrip_rstripNl_ne l hns)
  | cons c t =>
    have hm2 : (c = '!' || c = '*') = true := by
      unfold hasExplicitMarker at hm
      rw [hst] at hm
      exact hm
    by_cases hnl : endsWithNl l = true <;>
      simp [hst, hm2, postingContent, hnl, List.append_assoc]

lemma updatePostingLine_clear_unmarked (l : Line)
    (hm : hasExplicitMarker l = false) :
    updatePostingLine l [] = l := by
  unfold updatePostingLine
  by_cases hns : pstrip l = []
  · rw [if_pos hns]
  · rw [if_neg hns]
    cases hst : lstrip (rstripNl l) with
    | nil => exact absurd hst (lstrip_rstripNl_ne l hns)
    | cons c t =>
      have hm2 : (c = '!' || c = '*') = false := by
        unfold hasExplicitMarker at hm
        rw [hst] at hm
        exact hm
      simp [hst, hm2]

lemma getLast?_some_of_ne_nil (x : Line) (h : x ≠ []) : ∃ c, x.getLast? = some c := by
  induction x with
  | nil => exact absurd rfl h
  | cons a t ih =>
    cases t with
    | nil => exact ⟨a, rfl⟩
    | cons b r =>
      obtain ⟨c, hc⟩ := ih (by simp)
      exact ⟨c, by rw [List.getLast?_cons_cons]; exact hc⟩

lemma postingContent_eq_nil (l : Line) (hst : lstrip (rstripNl l) = []) :
    postingContent l = [] := by
  unfold postingContent
  rw [hst]

lemma postingContent_eq_marker (l : Line) (c : Char) (t : Line)
    (hst : lstrip (rstripNl l) = c :: t) (hm : (c = '!' || c = '*') = true) :
    postingContent l = lstrip t := by
  unfold postingContent
  rw [hst]
  simp [hm]

lemma postingContent_eq_plain (l : Line) (c : Char) (t : Line)
    (hst : lstrip (rstripNl l) = c :: t) (hm : (c = '!' || c = '*') = false) :
    postingContent l = c :: t := by
  unfold postingContent
  rw [hst]
  simp [hm]

lemma hasExplicitMarker_eq (l : Line) (c : Char) (t : Line)
    (hst : lstrip (rstripNl l) = c :: t) :
    hasExplicitMarker l = (c = '!' || c = '*') := by
  unfold hasExplicitMarker
  rw [hst]

lemma hasExplicitMarker_nil (l : Line) (hst : lstrip (rstripNl l) = []) :
    hasExplicitMarker l = false := by
  unfold hasExplicitMarker
  rw [hst]

lemma postingContent_suffix (l : Line) : postingContent l <:+ rstripNl l := by
  cases hst : lstrip (rstripNl l) with
  | nil => rw [postingContent_eq_nil l hst]; exact List.nil_suffix
  | cons c t =>
    by_cases hm : (c = '!' || c = '*') = true
    · rw [postingContent_eq_marker l c t hst hm]
      calc lstrip t <:+ t := List.dropWhile_suffix isWs
      _ <:+ c :: t := List.suffix_cons c t
      _ <:+ rstripNl l := hst ▸ List.dropWhile_suffix isWs
    · rw [postingContent_eq_plain l c t hst (by simpa using hm)]
      exact hst ▸ List.dropWhile_suffix isWs

lemma postingContent_lstripped (l : Line) : lstrip (postingContent l) = postingContent l := by
  cases hst : lstrip (rstripNl l) with
  | nil => rw [postingContent_eq_nil l hst]; rfl
  | cons c t =>
    by_cases hm : (c = '!' || c = '*') = true
    · rw [postingContent_eq_marker l c t hst hm]
      exact lstrip_idem t
    · rw [postingContent_eq_plain l c t hst (by simpa using hm)]
      exact lstrip_cons_neg c t (lstrip_head_not_ws (rstripNl l) c t hst)

lemma postingContent_head_not_ws (l : Line) (c : Char) (t : Line)
    (h : postingContent l = c :: t) : isWs c = false := by
  have := postingContent_lstripped l
  rw [h] at this
  exact lstrip_head_not_ws _ c t this

lemma postingContent_last (l : Line) (h : postingContent l ≠ []) :
    ∃ cl, (postingContent l).getLast? = some cl ∧ cl ≠ '\n' := by
  have hsuf := postingContent_suffix l
  have hr : rstripNl l ≠ [] := by
    intro he
    rw [he] at hsuf
    exact h (List.suffix_nil.1 hsuf)
  obtain ⟨cl, hcl⟩ := getLast?_some_of_ne_nil _ hr
  refine ⟨cl, ?_, getLast?_rstripNl_ne l cl hcl⟩
  rw [suffix_getLast? (rstripNl l) _ hsuf h]
  exact hcl

lemma noHiddenMarker_iff (l : Line) :
    noHiddenMarker l = (match postingContent l with
      | c :: _ => !(c = '!' || c = '*')
      | [] => true) := by
  unfold noHiddenMarker
  cases hst : lstrip (rstripNl l) with
  | nil => rw [postingContent_eq_nil l hst]
  | cons d t =>
    by_cases hm : (d = '!' || d = '*') = true
    · rw [postingContent_eq_marker l d t hst hm]
      simp [hm]
    · rw [postingContent_eq_plain l d t hst (by simpa using hm)]
      simp [hm]

lemma noHiddenMarker_head (l : Line) (h : noHiddenMarker l = true) (c : Char) (pc2 : Line)
    (hpc : postingContent l = c :: pc2) : (c = '!' || c = '*') = false := by
  rw [noHiddenMarker_iff, hpc] at h
  simpa using h

lemma assembled_rstripNl (w : Line) (c0 : Char) (mid2 : Line) (b : Bool)
    (cl : Char) (hlast : (c0 :: mid2).getLast? = some cl) (hcl : cl ≠ '\n') :
    rstripNl (w ++ c0 :: mid2 ++ (if b then ['\n'] else [])) = w ++ c0 :: mid2 := by
  have hfull : (w ++ c0 :: mid2).getLast? = some cl := by
    rw [List.getLast?_append_of_ne_nil w (by simp)]
    exact hlast
  cases b with
  | true =>
    rw [if_pos rfl, rstripNl_append_nl]
    exact rdrop_eq_self _ _ cl hfull (by simp [hcl])
  | false =>
    rw [if_neg (by simp), List.append_nil]
    exact rdrop_eq_self _ _ cl hfull (by simp [hcl])

lemma assembled_takeWhile (w : Line) (c0 : Char) (mid2 : Line)
    (hw : ∀ d ∈ w, isWs d = true) (hc0 : isWs c0 = false) :
    (w ++ c0 :: mid2).takeWhile isWs = w :=
  takeWhile_ws_append w c0 mid2 hw hc0

lemma assembled_lstrip (w : Line) (c0 : Char) (mid2 : Line)
    (hw : ∀ d ∈ w, isWs d = true) (hc0 : isWs c0 = false) :
    lstrip (w ++ c0 :: mid2) = c0 :: mid2 := by
  rw [lstrip_append_all w _ hw, lstrip_cons_neg c0 mid2 hc0]

lemma assembled_endsWithNl (w : Line) (c0 : Char) (mid2 : Line) (b : Bool)
    (cl : Char) (hlast : (c0 :: mid2).getLast? = some cl) (hcl : cl ≠ '\n') :
    endsWithNl (w ++ c0 :: mid2 ++ (if b then ['\n'] else [])) = b := by
  have hfull : (w ++ c0 :: mid2).getLast? = some cl := by
    rw [List.getLast?_append_of_ne_nil w (by simp)]
    exact hlast
  cases b with
  | true =>
    rw [if_pos rfl]
    unfold endsWithNl
    rw [List.getLast?_append_of_ne_nil _ (by simp)]
    simp
  | false =>
    rw [if_neg (by simp), List.append_nil]
    unfold endsWithNl
    rw [hfull]
    simp [hcl]

lemma assembled_pstrip_ne (w : Line) (c0 : Char) (mid2 : Line) (b : Bool)
    (hc0 : isWs c0 = false) :
    ¬ pstrip (w ++ c0 :: mid2 ++ (if b then ['\n'] else [])) = [] := by
  intro h
  have := (pstrip_eq_nil_iff _).1 h c0 (by simp)
  rw [this] at hc0
  cases hc0

lemma updatePostingLine_blank (l s : Line) (h : pstrip l = []) :
    updatePostingLine l s = l := by
  unfold updatePostingLine
  rw [if_pos h]

lemma updatePostingLine_set_idem (l : Line) (m : Char)
    (hm : (m = '!' || m = '*') = true) (hmw : isWs m = false) (hns : ¬ pstrip l = []) :
    updatePostingLine (updatePostingLine l [m]) [m] = updatePostingLine l [m] := by
  have hw : ∀ d ∈ (rstripNl l).takeWhile isWs, isWs d = true :=
    fun d hd => List.mem_takeWhile_imp hd
  rw [updatePostingLine_set l [m] hns (by simp)]
  have hshape : (rstripNl l).takeWhile isWs ++ [m] ++ [' '] ++ postingContent l
      = (rstripNl l).takeWhile isWs ++ (m :: ' ' :: postingContent l) := by
    simp
  rw [hshape]
  obtain ⟨cl, hcl1, hcl2⟩ :
      ∃ cl, (m :: ' ' :: postingContent l).getLast? = some cl ∧ cl ≠ '\n' := by
    by_cases hpc : postingContent l = []
    · rw [hpc]
      exact ⟨' ', rfl, by decide⟩
    · obtain ⟨cl, h1, h2⟩ := postingContent_last l hpc
      refine ⟨cl, ?_, h2⟩
      rw [show (m :: ' ' :: postingContent l) = [m, ' '] ++ postingContent l from rfl,
        List.getLast?_append_of_ne_nil _ hpc]
      exact h1
  have hA1 := assembled_rstripNl ((rstripNl l).takeWhile isWs) m (' ' :: postingContent l)
    (endsWithNl l) cl hcl1 hcl2
  have hA2 := assembled_takeWhile ((rstripNl l).takeWhile isWs) m (' ' :: postingContent l)
    hw hmw
  have hA3 := assembled_lstrip ((rstripNl l).takeWhile isWs) m (' ' :: postingContent l)
    hw hmw
  have hA4 := assembled_endsWithNl ((rstripNl l).takeWhile isWs) m (' ' :: postingContent l)
    (endsWithNl l) cl hcl1 hcl2
  have hA5 := assembled_pstrip_ne ((rstripNl l).takeWhile isWs) m (' ' :: postingContent l)
    (endsWithNl l) hmw
  have hst2 : lstrip (rstripNl ((rstripNl l).takeWhile isWs ++ (m :: ' ' :: postingContent l)
      ++ (if endsWithNl l then ['\n'] else []))) = m :: (' ' :: postingContent l) := by
    rw [hA1]
    exact hA3
  have hpcr : postingContent ((rstripNl l).takeWhile isWs ++ (m :: ' ' :: postingContent l)
      ++ (if endsWithNl l then ['\n'] else [])) = postingContent l := by
    rw [postingContent_eq_marker _ m (' ' :: postingContent l) hst2 hm,
      lstrip_cons_pos ' ' _ (by decide)]
    exact postingContent_lstripped l
  rw [updatePostingLine_set _ [m] hA5 (by simp), hA1, hA2, hpcr, hA4, hshape]

lemma updatePostingLine_clear_idem (l : Line) (hns : ¬ pstrip l = [])
    (hnh : noHiddenMarker l = true) :
    updatePostingLine (updatePostingLine l []) [] = updatePostingLine l [] := by
  by_cases hm : hasExplicitMarker l = true
  · rw [updatePostingLine_clear_marked l hns hm]
    by_cases hpc : postingContent l = []
    · rw [hpc]
      apply updatePostingLine_blank
      rw [pstrip_eq_nil_iff]
      intro c hc
      simp only [List.append_nil, List.mem_append] at hc
      rcases hc with hc | hc
      · exact List.mem_takeWhile_imp hc
      · rcases List.mem_ite_nil_right.1 hc with ⟨_, hc2⟩
        rw [List.mem_singleton.1 hc2]
        decide
    · obtain ⟨c0, pc2, hpc0⟩ := List.exists_cons_of_ne_nil hpc
      have hc0w : isWs c0 = false := postingContent_head_not_ws l c0 pc2 hpc0
      have hc0m : (c0 = '!' || c0 = '*') = false := noHiddenMarker_head l hnh c0 pc2 hpc0
      obtain ⟨cl, hcl1, hcl2⟩ := postingContent_last l hpc
      rw [hpc0] at hcl1
      have hw : ∀ d ∈ (rstripNl l).takeWhile isWs, isWs d = true :=
        fun d hd => List.mem_takeWhile_imp hd
      rw [hpc0]
      apply updatePostingLine_clear_unmarked
      have hA1 := assembled_rstripNl ((rstripNl l).takeWhile isWs) c0 pc2
        (endsWithNl l) cl hcl1 hcl2
      have hA3 := assembled_lstrip ((rstripNl l).takeWhile isWs) c0 pc2 hw hc0w
      have hst2 : lstrip (rstripNl ((rstripNl l).takeWhile isWs ++ c0 :: pc2
          ++ (if endsWithNl l then ['\n'] else []))) = c0 :: pc2 := by
        rw [hA1]
        exact hA3
      rw [hasExplicitMarker_eq _ c0 pc2 hst2]
      exact hc0m
  · rw [updatePostingLine_clear_unmarked l (Bool.eq_false_iff.2 hm),
      updatePostingLine_clear_unmarked l (Bool.eq_false_iff.2 hm)]

/-- C5 (amended): applying `_update_posting_line` twice with the same
status `S` equals applying it once, for `S ∈ {"!", "*"}` on every line, and
for `S` = unset on every line that does not hide a second marker character
directly behind its explicit marker. -/
theorem c5_amended_idempotent (l s : Line)
    (hs : s = ['!'] ∨ s = ['*'] ∨ (s = [] ∧ noHiddenMarker l = true)) :
    updatePostingLine (updatePostingLine l s) s = updatePostingLine l s := by
  by_cases hblank : pstrip l = []
  · rw [updatePostingLine_blank l s hblank, updatePostingLine_blank l s hblank]
  · rcases hs with rfl | rfl | ⟨rfl, hnh⟩
    · exact updatePostingLine_set_idem l '!' (by decide) (by decide) hblank
    · exact updatePostingLine_set_idem l '*' (by decide) (by decide) hblank
    · exact updatePostingLine_clear_idem l hblank hnh

/-- Witness for the amended C5: setting `"!"` on a realistic posting line,
and clearing a well-formed marked line, both idempotent. -/
theorem c5_amended_idempotent_witness :
    updatePostingLine (updatePostingLine samplePendingPosting ['!']) ['!']
      = updatePostingLine samplePendingPosting ['!'] :=
  c5_amended_idempotent samplePendingPosting ['!'] (Or.inl rfl)

lemma getD_set_ne (l : List Line) (i j : Nat) (a : Line) (h : i ≠ j) :
    (l.set i a).getD j [] = l.getD j [] := by
  rw [List.getD_eq_getElem?_getD, List.getD_eq_getElem?_getD, List.getElem?_set_ne h]

lemma foldl_set_getD_ne {α : Type} (L : List α) (g : α → Nat)
    (v : List Line → α → Line) (ls : List Line) (j : Nat)
    (h : ∀ x ∈ L, g x ≠ j) :
    (L.foldl (fun acc x => acc.set (g x) (v acc x)) ls).getD j [] = ls.getD j [] := by
  induction L generalizing ls with
  | nil => rfl
  | cons a rest ih =>
    rw [List.foldl_cons, ih _ (fun x hx => h x (List.mem_cons_of_mem _ hx)),
      getD_set_ne _ _ _ _ (h a (by simp))]

lemma foldl_set_length {α : Type} (L : List α) (g : α → Nat)
    (v : List Line → α → Line) (ls : List Line) :
    (L.foldl (fun acc x => acc.set (g x) (v acc x)) ls).length = ls.length := by
  induction L generalizing ls with
  | nil => rfl
  | cons a rest ih =>
    rw [List.foldl_cons, ih, List.length_set]

lemma processTransaction_length (ls : List Line) (t : Nat) (ps : List Nat) (s : Line) :
    (processTransaction ls t ps s).length = ls.length := by
  unfold processTransaction
  by_cases hc : (allSameStatus ((finalStatusesOf ls t ps s).map Prod.snd)
      && !((finalStatusesOf ls t ps s).map Prod.fst).isEmpty) = true
  · rw [if_pos hc, foldl_set_length, List.length_set]
  · rw [if_neg hc, foldl_set_length, List.length_set]

lemma processTransaction_getD_untouched (ls : List Line) (t : Nat) (ps : List Nat)
    (s : Line) (j : Nat) (hj1 : j ≠ t - 1)
    (hj2 : ∀ pr ∈ finalStatusesOf ls t ps s, j ≠ pr.1 - 1) :
    (processTransaction ls t ps s).getD j [] = ls.getD j [] := by
  unfold processTransaction
  by_cases hc : (allSameStatus ((finalStatusesOf ls t ps s).map Prod.snd)
      && !((finalStatusesOf ls t ps s).map Prod.fst).isEmpty) = true
  · rw [if_pos hc, foldl_set_getD_ne _ _ _ _ _ ?hp, getD_set_ne _ _ _ _ (Ne.symm hj1)]
    case hp =>
      intro p hp
      obtain ⟨pr, hpr, rfl⟩ := List.mem_map.1 hp
      exact Ne.symm (hj2 pr hpr)
  · rw [if_neg hc, foldl_set_getD_ne _ _ _ _ _ ?hp2, getD_set_ne _ _ _ _ (Ne.symm hj1)]
    case hp2 =>
      intro pr hpr
      exact Ne.symm (hj2 pr hpr)

lemma applyGroups_length (s : Line) :
    ∀ (gs : List (Nat × List Nat)) (ls : List Line),
      (applyGroups s ls gs).length = ls.length
  | [], _ => rfl
  | (t, ps) :: rest, ls => by
    rw [applyGroups, applyGroups_length s rest, processTransaction_length]

lemma applyGroups_getD_untouched (s : Line) :
    ∀ (gs : List (Nat × List Nat)) (ls : List Line) (j : Nat),
      (∀ tf ∈ groupPlans s ls gs, j ≠ tf.1 - 1 ∧ ∀ pr ∈ tf.2, j ≠ pr.1 - 1) →
      (applyGroups s ls gs).getD j [] = ls.getD j []
  | [], _, _, _ => rfl
  | (t, ps) :: rest, ls, j, h => by
    have hhead := h (t, finalStatusesOf ls t ps s) (by rw [groupPlans]; exact List.mem_cons_self _ _)
    rw [applyGroups,
      applyGroups_getD_untouched s rest (processTransaction ls t ps s) j
        (fun tf htf => h tf (by rw [groupPlans]; exact List.mem_cons_of_mem _ htf)),
      processTransaction_getD_untouched ls t ps s j hhead.1 hhead.2]

lemma plan_some_elim (lines : List Line) (nums : List Nat) (e s : Line)
    (final : List Line) (h : updatePostingsPlan lines nums e s = some final) :
    nums.all (validateTarget lines e) = true ∧
      ∃ groups, groupByTransaction lines nums = some groups ∧
        final = applyGroups s lines groups := by
  unfold updatePostingsPlan at h
  by_cases hv : nums.all (validateTarget lines e) = true
  · refine ⟨hv, ?_⟩
    rw [if_neg (by simp [hv])] at h
    cases hg : groupByTransaction lines nums with
    | none => rw [hg] at h; cases h
    | some groups =>
      rw [hg] at h
      exact ⟨groups, rfl, by injection h with h2; exact h2.symm⟩
  · rw [if_pos (by simp [Bool.eq_false_iff.2 hv])] at h
    cases h

lemma updateTransactionLine_cases (l s2 : Line) :
    updateTransactionLine l s2 = l ∨
      ∃ date mk desc,
        matchTransactionHeader (pstrip (rstripNl l)) = some (date, mk, desc) ∧
        updateTransactionLine l s2 =
          (rstripNl l).takeWhile isWs ++ date ++ [' '] ++
            (if s2 ≠ [] then s2 ++ [' '] else []) ++ desc ++
            (if endsWithNl l then ['\n'] else []) := by
  unfold updateTransactionLine
  cases hm : matchTransactionHeader (pstrip (rstripNl l)) with
  | none =>
    left
    simp only [hm]
  | some dmd =>
    right
    obtain ⟨date, mk, desc⟩ := dmd
    refine ⟨date, mk, desc, rfl, ?_⟩
    simp only [hm]
    by_cases hs2 : s2 ≠ [] <;> by_cases hnl : endsWithNl l = true <;>
      simp [hs2, hnl, List.append_assoc]

lemma updatePostingLine_cases (l s2 : Line) :
    updatePostingLine l s2 = l ∨
      updatePostingLine l s2 =
        (rstripNl l).takeWhile isWs ++ (if s2 ≠ [] then s2 ++ [' '] else []) ++
          postingContent l ++ (if endsWithNl l then ['\n'] else []) := by
  by_cases hb : pstrip l = []
  · left
    exact updatePostingLine_blank l s2 hb
  · by_cases hs2 : s2 = []
    · subst hs2
      by_cases hm : hasExplicitMarker l = true
      · right
        rw [updatePostingLine_clear_marked l hb hm]
        simp [List.append_assoc]
      · left
        exact updatePostingLine_clear_unmarked l (Bool.eq_false_iff.2 hm)
    · right
      rw [updatePostingLine_set l s2 hb hs2]
      simp [hs2, List.append_assoc]

/-- C7: for every successful `update_postings_status` call, the buffer
keeps its length, every line whose index is not a rewritten header
(`t - 1`) or rewritten posting (`p - 1`) of an affected transaction (as
recorded by the operation's own per-transaction plans) is byte-for-byte
identical before and after, and each of the two line rewrites either
leaves a line untouched or changes only its marker segment (the marker
characters and the single adjacent space), preserving leading whitespace,
date, content and line terminator. -/
theorem c7_untouched_lines_preserved (lines : List Line) (nums : List Nat)
    (e s : Line) (final : List Line) (groups : List (Nat × List Nat))
    (hplan : updatePostingsPlan lines nums e s = some final)
    (hgroups : groupByTransaction lines nums = some groups) :
    final.length = lines.length ∧
      (∀ j, (∀ tf ∈ groupPlans s lines groups, j ≠ tf.1 - 1 ∧ ∀ pr ∈ tf.2, j ≠ pr.1 - 1) →
        final.getD j [] = lines.getD j []) ∧
      (∀ l s2, updatePostingLine l s2 = l ∨
        updatePostingLine l s2 =
          (rstripNl l).takeWhile isWs ++ (if s2 ≠ [] then s2 ++ [' '] else []) ++
            postingContent l ++ (if endsWithNl l then ['\n'] else [])) ∧
      (∀ l s2, updateTransactionLine l s2 = l ∨
        ∃ date mk desc,
          matchTransactionHeader (pstrip (rstripNl l)) = some (date, mk, desc) ∧
          updateTransactionLine l s2 =
            (rstripNl l).takeWhile isWs ++ date ++ [' '] ++
              (if s2 ≠ [] then s2 ++ [' '] else []) ++ desc ++
              (if endsWithNl l then ['\n'] else [])) := by
  obtain ⟨hv, groups2, hg2, hfinal⟩ := plan_some_elim lines nums e s final hplan
  rw [hgroups] at hg2
  injection hg2 with hg2
  subst hg2
  subst hfinal
  exact ⟨applyGroups_length s groups lines,
    fun j h => applyGroups_getD_untouched s groups lines j h,
    fun l s2 => updatePostingLine_cases l s2,
    fun l s2 => updateTransactionLine_cases l s2⟩

/-- Witness for C7 on the fully targeted two-posting transaction. -/
theorem c7_untouched_lines_preserved_witness :
    ([['2', '0', '2', '4', '-', '0', '1', '-', '0', '1', ' ', '*', ' ', 'T'],
      [' ', ' ', 'A'], [' ', ' ', 'B']] : List Line).length = pairBuffer.length ∧
      (∀ j, (∀ tf ∈ groupPlans ['*'] pairBuffer [(1, [2, 3])],
          j ≠ tf.1 - 1 ∧ ∀ pr ∈ tf.2, j ≠ pr.1 - 1) →
        ([['2', '0', '2', '4', '-', '0', '1', '-', '0', '1', ' ', '*', ' ', 'T'],
          [' ', ' ', 'A'], [' ', ' ', 'B']] : List Line).getD j [] = pairBuffer.getD j []) ∧
      (∀ l s2, updatePostingLine l s2 = l ∨
        updatePostingLine l s2 =
          (rstripNl l).takeWhile isWs ++ (if s2 ≠ [] then s2 ++ [' '] else []) ++
            postingContent l ++ (if endsWithNl l then ['\n'] else [])) ∧
      (∀ l s2, updateTransactionLine l s2 = l ∨
        ∃ date mk desc,
          matchTransactionHeader (pstrip (rstripNl l)) = some (date, mk, desc) ∧
          updateTransactionLine l s2 =
            (rstripNl l).takeWhile isWs ++ date ++ [' '] ++
              (if s2 ≠ [] then s2 ++ [' '] else []) ++ desc ++
              (if endsWithNl l then ['\n'] else [])) :=
  c7_untouched_lines_preserved pairBuffer [2, 3] ['!'] ['*']
    [['2', '0', '2', '4', '-', '0', '1', '-', '0', '1', ' ', '*', ' ', 'T'],
     [' ', ' ', 'A'], [' ', ' ', 'B']] [(1, [2, 3])] (by decide) (by decide)

/-- Witness for the amended C4: a concrete refused-write run in which the
hook invocation is still visible in the watcher state. -/
theorem c4_amended_hook_iff_plan_witness :
    (updatePostingsStatus ⟨some ([sampleHeader, samplePendingPosting], 10)⟩
        (some ⟨false, 0⟩) 5 6 [2] ['!'] ['*']).2.2
      = match updatePostingsPlan
          (linesOf ⟨some ([sampleHeader, samplePendingPosting], 10)⟩) [2] ['!'] ['*'] with
        | none => some ⟨false, 0⟩
        | some _ =>
          (some (⟨false, 0⟩ : WatcherState)).map
            (fun ws => markInternalChange ws
              (mtimeOf ⟨some ([sampleHeader, samplePendingPosting], 10)⟩)) :=
  c4_amended_hook_iff_plan ⟨some ([sampleHeader, samplePendingPosting], 10)⟩
    (some ⟨false, 0⟩) 5 6 [2] ['!'] ['*'] (by decide)

lemma drop_cons_facts (ls : List Line) (i : Nat) (l : Line) (rest : List Line)
    (h : ls.drop i = l :: rest) : ls.getD i [] = l ∧ ls.drop (i + 1) = rest ∧ i < ls.length := by
  have hlen : i < ls.length := by
    by_contra hge
    rw [List.drop_eq_nil_of_le (by omega)] at h
    cases h
  refine ⟨?_, ?_, hlen⟩
  · have h0 : ls[i]? = (ls.drop i)[0]? := by
      rw [List.getElem?_drop, Nat.add_zero]
    rw [h] at h0
    rw [List.getD_eq_getElem?_getD, h0]
    simp
  · have : ls.drop (i + 1) = (ls.drop i).drop 1 := by
      rw [List.drop_drop, Nat.add_comm]
    rw [this, h]
    rfl

lemma nextDateFrom_facts (ls : List Line) :
    ∀ (rest : List Line) (i : Nat), ls.drop i = rest →
      (i ≤ nextDateFrom rest i ∧ nextDateFrom rest i ≤ i + rest.length) ∧
      (∀ d, i ≤ d → d < nextDateFrom rest i → isDate0 ls d = false) ∧
      (∀ d, i ≤ d → isDate0 ls d = true → nextDateFrom rest i ≤ d) ∧
      (nextDateFrom rest i = i + rest.length ∨ isDate0 ls (nextDateFrom rest i) = true)
  | [], i, hdrop => by
    refine ⟨⟨Nat.le_refl i, by simp [nextDateFrom]⟩, ?_, ?_, ?_⟩
    · intro d h1 h2
      rw [nextDateFrom] at h2
      omega
    · intro d h1 _
      rw [nextDateFrom]
      exact h1
    · left
      simp [nextDateFrom]
  | l :: rest2, i, hdrop => by
    obtain ⟨hget, hdrop2, hlen⟩ := drop_cons_facts ls i l rest2 hdrop
    by_cases hd : isDateStart (pstrip l) = true
    · have hnf : nextDateFrom (l :: rest2) i = i := by
        rw [nextDateFrom, if_pos hd]
      refine ⟨⟨by omega, by simp [hnf]⟩, ?_, ?_, ?_⟩
      · intro d h1 h2
        rw [hnf] at h2
        omega
      · intro d h1 _
        rw [hnf]
        exact h1
      · right
        rw [hnf]
        unfold isDate0
        rw [hget]
        exact hd
    · have hnf : nextDateFrom (l :: rest2) i = nextDateFrom rest2 (i + 1) := by
        rw [nextDateFrom, if_neg hd]
      obtain ⟨⟨ih1, ih2⟩, ih3, ih4, ih5⟩ := nextDateFrom_facts ls rest2 (i + 1) hdrop2
      refine ⟨⟨by omega, by rw [hnf]; simp; omega⟩, ?_, ?_, ?_⟩
      · intro d h1 h2
        rw [hnf] at h2
        by_cases hdi : d = i
        · subst hdi
          unfold isDate0
          rw [hget]
          exact Bool.eq_false_iff.2 hd
        · exact ih3 d (by omega) h2
      · intro d h1 hdate
        rw [hnf]
        by_cases hdi : d = i
        · subst hdi
          unfold isDate0 at hdate
          rw [hget] at hdate
          exact absurd hdate hd
        · exact ih4 d (by omega) hdate
      · rw [hnf]
        rcases ih5 with h | h
        · left
          rw [h]
          simp
          omega
        · right
          exact h

lemma nextDate_ge (ls : List Line) (t : Nat) : t ≤ nextDate ls t :=
  ((nextDateFrom_facts ls (ls.drop t) t rfl).1).1

lemma nextDate_le_length (ls : List Line) (t : Nat) (h : t ≤ ls.length) :
    nextDate ls t ≤ ls.length := by
  have := ((nextDateFrom_facts ls (ls.drop t) t rfl).1).2
  rw [List.length_drop] at this
  unfold nextDate
  omega

lemma nextDate_le_of_date (ls : List Line) (t d : Nat) (h1 : t ≤ d)
    (h2 : isDate0 ls d = true) : nextDate ls t ≤ d :=
  (nextDateFrom_facts ls (ls.drop t) t rfl).2.2.1 d h1 h2

lemma nextDate_not_date (ls : List Line) (t d : Nat) (h1 : t ≤ d)
    (h2 : d < nextDate ls t) : isDate0 ls d = false :=
  (nextDateFrom_facts ls (ls.drop t) t rfl).2.1 d h1 h2

lemma nextDate_hit (ls : List Line) (t : Nat) (h : t ≤ ls.length) :
    nextDate ls t = ls.length ∨ isDate0 ls (nextDate ls t) = true := by
  rcases (nextDateFrom_facts ls (ls.drop t) t rfl).2.2.2 with he | hd
  · left
    rw [List.length_drop] at he
    unfold nextDate
    omega
  · right
    exact hd

lemma nextDate_mono_datepres (ls0 cur : List Line) (t : Nat)
    (hlen : cur.length = ls0.length) (ht : t ≤ ls0.length)
    (hdp : ∀ i, isDate0 ls0 i = true → isDate0 cur i = true) :
    nextDate cur t ≤ nextDate ls0 t := by
  rcases nextDate_hit ls0 t ht with h | h
  · rw [h, ← hlen]
    exact nextDate_le_length cur t (by omega)
  · exact nextDate_le_of_date cur t _ (nextDate_ge ls0 t) (hdp _ h)

lemma isDate0_lt_length (ls : List Line) (i : Nat) (h : isDate0 ls i = true) :
    i < ls.length := by
  by_contra hge
  unfold isDate0 at h
  rw [List.getD_eq_default _ _ (by omega)] at h
  simp [pstrip, lstrip, rstripWs, isDateStart] at h

lemma scanPostings_facts (ls : List Line) :
    ∀ (rest : List Line) (i : Nat), ls.drop i = rest →
      ∀ p ∈ scanPostings rest i,
        i + 1 ≤ p ∧ p - 1 < ls.length ∧ pstrip (ls.getD (p - 1) []) ≠ [] ∧
          isDate0 ls (p - 1) = false
  | [], _, _, p, hp => absurd hp (by simp [scanPostings])
  | l :: rest2, i, hdrop, p, hp => by
    obtain ⟨hget, hdrop2, hlen⟩ := drop_cons_facts ls i l rest2 hdrop
    rw [scanPostings] at hp
    by_cases c1 : pstrip l = []
    · rw [if_pos c1] at hp
      exact absurd hp (by simp)
    by_cases c2 : isDateStart (pstrip l) = true
    · rw [if_neg c1, if_pos c2] at hp
      exact absurd hp (by simp)
    by_cases c3 : (lstrip l ≠ [] && !(l.head? = some ' ' || l.head? = some '\t')) = true
    · rw [if_neg c1, if_neg (by rw [Bool.eq_false_iff.2 c2]; simp), if_pos c3] at hp
      exact absurd hp (by simp)
    rw [if_neg c1, if_neg (by rw [Bool.eq_false_iff.2 c2]; simp), if_neg c3, if_pos c1] at hp
    rcases List.mem_cons.1 hp with rfl | hp2
    · refine ⟨by omega, by simpa using hlen, ?_, ?_⟩
      · rw [Nat.add_sub_cancel, hget]
        exact c1
      · unfold isDate0
        rw [Nat.add_sub_cancel, hget]
        exact Bool.eq_false_iff.2 c2
    · have := scanPostings_facts ls rest2 (i + 1) hdrop2 p hp2
      refine ⟨by omega, this.2.1, this.2.2.1, this.2.2.2⟩

lemma scanPostings_le_date (ls : List Line) :
    ∀ (rest : List Line) (i : Nat), ls.drop i = rest →
      ∀ d, i ≤ d → isDate0 ls d = true → ∀ p ∈ scanPostings rest i, p ≤ d
  | [], _, _, d, _, _, p, hp => absurd hp (by simp [scanPostings])
  | l :: rest2, i, hdrop, d, hid, hdate, p, hp => by
    obtain ⟨hget, hdrop2, hlen⟩ := drop_cons_facts ls i l rest2 hdrop
    rw [scanPostings] at hp
    by_cases c1 : pstrip l = []
    · rw [if_pos c1] at hp
      exact absurd hp (by simp)
    by_cases c2 : isDateStart (pstrip l) = true
    · rw [if_neg c1, if_pos c2] at hp
      exact absurd hp (by simp)
    by_cases c3 : (lstrip l ≠ [] && !(l.head? = some ' ' || l.head? = some '\t')) = true
    · rw [if_neg c1, if_neg (by rw [Bool.eq_false_iff.2 c2]; simp), if_pos c3] at hp
      exact absurd hp (by simp)
    rw [if_neg c1, if_neg (by rw [Bool.eq_false_iff.2 c2]; simp), if_neg c3, if_pos c1] at hp
    have hdne : d ≠ i := by
      intro hdi
      subst hdi
      unfold isDate0 at hdate
      rw [hget] at hdate
      exact c2 hdate
    rcases List.mem_cons.1 hp with rfl | hp2
    · omega
    · exact scanPostings_le_date ls rest2 (i + 1) hdrop2 d (by omega) hdate p hp2

lemma scanPostings_ge :
    ∀ (rest : List Line) (i : Nat), ∀ p ∈ scanPostings rest i, i + 1 ≤ p
  | [], _, p, hp => absurd hp (by simp [scanPostings])
  | l :: rest2, i, p, hp => by
    rw [scanPostings] at hp
    by_cases c1 : pstrip l = []
    · rw [if_pos c1] at hp
      exact absurd hp (by simp)
    by_cases c2 : isDateStart (pstrip l) = true
    · rw [if_neg c1, if_pos c2] at hp
      exact absurd hp (by simp)
    by_cases c3 : (lstrip l ≠ [] && !(l.head? = some ' ' || l.head? = some '\t')) = true
    · rw [if_neg c1, if_neg (by rw [Bool.eq_false_iff.2 c2]; simp), if_pos c3] at hp
      exact absurd hp (by simp)
    rw [if_neg c1, if_neg (by rw [Bool.eq_false_iff.2 c2]; simp), if_neg c3, if_pos c1] at hp
    rcases List.mem_cons.1 hp with rfl | hp2
    · omega
    · have := scanPostings_ge rest2 (i + 1) p hp2
      omega

lemma scanPostings_pairwise :
    ∀ (rest : List Line) (i : Nat), (scanPostings rest i).Pairwise (· < ·)
  | [], _ => by simp [scanPostings]
  | l :: rest2, i => by
    rw [scanPostings]
    by_cases c1 : pstrip l = []
    · rw [if_pos c1]
      simp
    by_cases c2 : isDateStart (pstrip l) = true
    · rw [if_neg c1, if_pos c2]
      simp
    by_cases c3 : (lstrip l ≠ [] && !(l.head? = some ' ' || l.head? = some '\t')) = true
    · rw [if_neg c1, if_neg (by rw [Bool.eq_false_iff.2 c2]; simp), if_pos c3]
      simp
    rw [if_neg c1, if_neg (by rw [Bool.eq_false_iff.2 c2]; simp), if_neg c3, if_pos c1]
    refine List.Pairwise.cons ?_ (scanPostings_pairwise rest2 (i + 1))
    intro q hq
    have := scanPostings_ge rest2 (i + 1) q hq
    omega

lemma findAllPostings_facts (ls : List Line) (t p : Nat)
    (hp : p ∈ findAllPostingsForTransaction ls t) :
    t + 1 ≤ p ∧ p - 1 < ls.length ∧ pstrip (ls.getD (p - 1) []) ≠ [] ∧
      isDate0 ls (p - 1) = false ∧ p - 1 < nextDate ls t := by
  have hbase := scanPostings_facts ls (ls.drop t) t rfl p hp
  refine ⟨hbase.1, hbase.2.1, hbase.2.2.1, hbase.2.2.2, ?_⟩
  by_cases ht : t ≤ ls.length
  · rcases nextDate_hit ls t ht with h | h
    · omega
    · have := scanPostings_le_date ls (ls.drop t) t rfl (nextDate ls t) (nextDate_ge ls t) h
        p hp
      omega
  · unfold findAllPostingsForTransaction at hp
    rw [List.drop_eq_nil_of_le (by omega)] at hp
    exact absurd hp (by simp [scanPostings])

lemma findTransAux_some_facts (lines : List Line) :
    ∀ (m t : Nat), findTransAux lines m = some t →
      1 ≤ t ∧ isDate0 lines (t - 1) = true
  | 0, t, h => by cases h
  | i + 1, t, h => by
    rw [findTransAux] at h
    by_cases hd : isDateStart (pstrip (lines.getD i [])) = true
    · rw [if_pos hd] at h
      injection h with h
      subst h
      exact ⟨by omega, by simpa [isDate0] using hd⟩
    · rw [if_neg hd] at h
      by_cases hb : pstrip (lines.getD i []) = []
      · rw [if_pos hb] at h
        cases h
      · rw [if_neg hb] at h
        exact findTransAux_some_facts lines i t h

lemma insertGroup_keys (t n : Nat) :
    ∀ (acc : List (Nat × List Nat)),
      (insertGroup t n acc).map Prod.fst =
        if t ∈ acc.map Prod.fst then acc.map Prod.fst else acc.map Prod.fst ++ [t]
  | [] => by simp [insertGroup]
  | (t2, ns) :: rest => by
    rw [insertGroup]
    by_cases ht2 : t2 = t
    · subst ht2
      rw [if_pos rfl]
      simp
    · rw [if_neg ht2]
      have := insertGroup_keys t n rest
      by_cases hmem : t ∈ rest.map Prod.fst
      · simp only [List.map_cons, this, if_pos hmem]
        rw [if_pos (by simp [hmem])]
      · simp only [List.map_cons, this, if_neg hmem]
        rw [if_neg (by simp [hmem, Ne.symm ht2])]
        simp

lemma insertGroup_keys_sub (t n : Nat) (acc : List (Nat × List Nat)) (k : Nat)
    (hk : k ∈ (insertGroup t n acc).map Prod.fst) :
    k ∈ acc.map Prod.fst ∨ k = t := by
  rw [insertGroup_keys t n acc] at hk
  by_cases hmem : t ∈ acc.map Prod.fst
  · rw [if_pos hmem] at hk
    exact Or.inl hk
  · rw [if_neg hmem] at hk
    rcases List.mem_append.1 hk with h | h
    · exact Or.inl h
    · exact Or.inr (by simpa using h)

lemma insertGroup_nodup (t n : Nat) (acc : List (Nat × List Nat))
    (h : (acc.map Prod.fst).Nodup) : ((insertGroup t n acc).map Prod.fst).Nodup := by
  rw [insertGroup_keys t n acc]
  by_cases hmem : t ∈ acc.map Prod.fst
  · rw [if_pos hmem]
    exact h
  · rw [if_neg hmem]
    simp [List.nodup_append, h, hmem]

lemma groupByTransaction_aux_facts (lines : List Line) :
    ∀ (nums : List Nat) (acc groups : List (Nat × List Nat)),
      nums.foldlM
        (fun acc n => (findTransactionForPosting lines n).map (fun t => insertGroup t n acc))
        acc = some groups →
      (∀ k ∈ groups.map Prod.fst,
        k ∈ acc.map Prod.fst ∨ ∃ n ∈ nums, findTransactionForPosting lines n = some k) ∧
      ((acc.map Prod.fst).Nodup → (groups.map Prod.fst).Nodup)
  | [], acc, groups, h => by
    have hg : acc = groups := by simpa using h
    subst hg
    exact ⟨fun k hk => Or.inl hk, fun h2 => h2⟩
  | n :: rest, acc, groups, h => by
    rw [List.foldlM_cons] at h
    cases hf : findTransactionForPosting lines n with
    | none =>
      rw [hf] at h
      cases h
    | some t =>
      rw [hf] at h
      have h2 : rest.foldlM
          (fun acc n => (findTransactionForPosting lines n).map (fun t => insertGroup t n acc))
          (insertGroup t n acc) = some groups := by
        simpa using h
      obtain ⟨ih1, ih2⟩ :=
        groupByTransaction_aux_facts lines rest (insertGroup t n acc) groups h2
      constructor
      · intro k hk
        rcases ih1 k hk with hk2 | ⟨n2, hn2, hfind⟩
        · rcases insertGroup_keys_sub t n acc k hk2 with h3 | rfl
          · exact Or.inl h3
          · exact Or.inr ⟨n, by simp, hf⟩
        · exact Or.inr ⟨n2, by simp [hn2], hfind⟩
      · intro hnd
        exact ih2 (insertGroup_nodup t n acc hnd)

lemma groupByTransaction_facts (lines : List Line) (nums : List Nat)
    (groups : List (Nat × List Nat)) (h : groupByTransaction lines nums = some groups) :
    (∀ tp ∈ groups, ∃ n ∈ nums, findTransactionForPosting lines n = some tp.1) ∧
      (groups.map Prod.fst).Nodup := by
  unfold groupByTransaction at h
  obtain ⟨h1, h2⟩ := groupByTransaction_aux_facts lines nums [] groups h
  constructor
  · intro tp htp
    rcases h1 tp.1 (List.mem_map.2 ⟨tp, htp, rfl⟩) with hk | hk
    · exact absurd hk (by simp)
    · exact hk
  · exact h2 (by simp)

lemma getD_set_self (l : List Line) (i : Nat) (a : Line) (h : i < l.length) :
    (l.set i a).getD i [] = a := by
  rw [List.getD_eq_getElem?_getD, List.getElem?_set_self h]
  rfl

lemma foldl_set_getD_mem {α : Type} (g : α → Nat) (v : List Line → α → Line)
    (hv : ∀ acc acc2 y, acc.getD (g y) ([] : Line) = acc2.getD (g y) [] → v acc y = v acc2 y) :
    ∀ (L : List α) (ls : List Line) (x : α), x ∈ L →
      L.Pairwise (fun a b => g a ≠ g b) → g x < ls.length →
      (L.foldl (fun acc y => acc.set (g y) (v acc y)) ls).getD (g x) [] = v ls x
  | [], _, x, hx, _, _ => absurd hx (by simp)
  | a :: rest, ls, x, hx, hpw, hrange => by
    rw [List.foldl_cons]
    have hpw1 : ∀ y ∈ rest, g a ≠ g y := fun y hy => List.rel_of_pairwise_cons hpw hy
    by_cases hxa : g x = g a
    · have hrest : ∀ y ∈ rest, g y ≠ g x := by
        intro y hy
        rw [hxa]
        exact (hpw1 y hy).symm
      rw [foldl_set_getD_ne rest g v _ (g x) hrest, hxa,
        getD_set_self ls (g a) (v ls a) (by omega)]
      rcases List.mem_cons.1 hx with rfl | hx2
      · rfl
      · exact absurd hxa.symm (hpw1 x hx2)
    · rcases List.mem_cons.1 hx with rfl | hx2
      · exact absurd rfl hxa
      · rw [foldl_set_getD_mem g v hv rest (ls.set (g a) (v ls a)) x hx2
          (List.Pairwise.sublist (List.sublist_cons_self a rest) hpw)
          (by rw [List.length_set]; exact hrange)]
        exact hv _ _ _ (getD_set_ne ls (g a) (g x) (v ls a) (fun he => hxa (he.symm)))

lemma not_ws_of_digit (c : Char) (h : c.isDigit = true) : isWs c = false := by
  by_contra hws
  have hws2 : isWs c = true := by simpa using hws
  simp only [isWs, Bool.or_eq_true, decide_eq_true_eq] at hws2
  rcases hws2 with ((((rfl | rfl) | rfl) | rfl) | rfl) | rfl <;> exact absurd h (by decide)

lemma not_ws_of_sep (c : Char) (h : isDateSep c = true) : isWs c = false := by
  rcases (by simpa [isDateSep] using h : c = '-' ∨ c = '/') with rfl | rfl <;> decide

lemma rstripWs_append_all (x y : Line) (h : ∀ c ∈ y, isWs c = true) :
    rstripWs (x ++ y) = rstripWs x := by
  unfold rstripWs
  rw [List.reverse_append, List.dropWhile_append,
    if_pos (by simp [List.dropWhile_eq_nil_iff.2 (fun c hc => h c (List.mem_reverse.1 hc))])]

lemma matchTransactionHeader_date_facts (s date mk desc : Line)
    (h : matchTransactionHeader s = some (date, mk, desc)) :
    (∀ y : Line, isDateStart (date ++ y) = true) ∧
      (∀ c ∈ date, isWs c = false) ∧ date ≠ [] := by
  rcases s with _ | ⟨a, _ | ⟨b, _ | ⟨c, _ | ⟨d, _ | ⟨s1, _ | ⟨e, _ | ⟨f, _ | ⟨s2, _ | ⟨g, _ |
    ⟨hh, rest⟩⟩⟩⟩⟩⟩⟩⟩⟩⟩
  case nil => exact absurd h (by simp [matchTransactionHeader])
  case cons.nil => exact absurd h (by simp [matchTransactionHeader])
  case cons.cons.nil => exact absurd h (by simp [matchTransactionHeader])
  case cons.cons.cons.nil => exact absurd h (by simp [matchTransactionHeader])
  case cons.cons.cons.cons.nil => exact absurd h (by simp [matchTransactionHeader])
  case cons.cons.cons.cons.cons.nil => exact absurd h (by simp [matchTransactionHeader])
  case cons.cons.cons.cons.cons.cons.nil => exact absurd h (by simp [matchTransactionHeader])
  case cons.cons.cons.cons.cons.cons.cons.nil =>
    exact absurd h (by simp [matchTransactionHeader])
  case cons.cons.cons.cons.cons.cons.cons.cons.nil =>
    exact absurd h (by simp [matchTransactionHeader])
  case cons.cons.cons.cons.cons.cons.cons.cons.cons.nil =>
    exact absurd h (by simp [matchTransactionHeader])
  case cons.cons.cons.cons.cons.cons.cons.cons.cons.cons =>
    by_cases hc : (a.isDigit && b.isDigit && c.isDigit && d.isDigit && isDateSep s1 &&
        e.isDigit && f.isDigit && isDateSep s2 && g.isDigit && hh.isDigit) = true
    · have hdate : date = [a, b, c, d, s1, e, f, s2, g, hh] := by
        simp only [matchTransactionHeader] at h
        rw [if_pos hc] at h
        split at h
        · split at h
          · split at h
            · cases h
            · injection h with h
              cases h
              rfl
          · split at h
            · cases h
            · injection h with h
              cases h
              rfl
        · injection h with h
          cases h
          rfl
      subst hdate
      simp only [Bool.and_eq_true] at hc
      obtain ⟨⟨⟨⟨⟨⟨⟨⟨⟨h1, h2⟩, h3⟩, h4⟩, h5⟩, h6⟩, h7⟩, h8⟩, h9⟩, h10⟩ := hc
      refine ⟨?_, ?_, by simp⟩
      · intro y
        simp [isDateStart, h1, h2, h3, h4, h5, h6, h7, h8, h9, h10]
      · intro ch hch
        rcases (by simpa using hch :
            ch = a ∨ ch = b ∨ ch = c ∨ ch = d ∨ ch = s1 ∨ ch = e ∨ ch = f ∨ ch = s2 ∨
              ch = g ∨ ch = hh) with
          rfl | rfl | rfl | rfl | rfl | rfl | rfl | rfl | rfl | rfl
        · exact not_ws_of_digit _ h1
        · exact not_ws_of_digit _ h2
        · exact not_ws_of_digit _ h3
        · exact not_ws_of_digit _ h4
        · exact not_ws_of_sep _ h5
        · exact not_ws_of_digit _ h6
        · exact not_ws_of_digit _ h7
        · exact not_ws_of_sep _ h8
        · exact not_ws_of_digit _ h9
        · exact not_ws_of_digit _ h10
    · simp only [matchTransactionHeader] at h
      rw [if_neg hc] at h
      cases h

lemma getLast?_mem (x : Line) (c : Char) (h : x.getLast? = some c) : c ∈ x := by
  induction x with
  | nil => cases h
  | cons a t ih =>
    cases t with
    | nil =>
      have : a = c := by simpa using h
      simp [this]
    | cons b r =>
      rw [List.getLast?_cons_cons] at h
      exact List.mem_cons_of_mem a (ih h)

lemma rstripWs_eq_self_of_last (x : Line) (c : Char) (h : x.getLast? = some c)
    (hc : isWs c = false) : rstripWs x = x :=
  rdrop_eq_self isWs x c h hc

lemma updateTransactionLine_isDate (l s2 : Line) (h : isDateStart (pstrip l) = true) :
    isDateStart (pstrip (updateTransactionLine l s2)) = true := by
  rcases updateTransactionLine_cases l s2 with heq | ⟨date, mk, desc, hm, heq⟩
  · rw [heq]
    exact h
  · rw [heq]
    obtain ⟨happend, hnws, hne⟩ := matchTransactionHeader_date_facts _ date mk desc hm
    obtain ⟨a, date2, rfl⟩ : ∃ a date2, date = a :: date2 := by
      cases date with
      | nil => exact absurd rfl hne
      | cons a d2 => exact ⟨a, d2, rfl⟩
    have hsh : (rstripNl l).takeWhile isWs ++ (a :: date2) ++ [' '] ++
        (if s2 ≠ [] then s2 ++ [' '] else []) ++ desc ++
        (if endsWithNl l then ['\n'] else []) =
        (rstripNl l).takeWhile isWs ++ ((a :: date2) ++ ([' '] ++
          ((if s2 ≠ [] then s2 ++ [' '] else []) ++ (desc ++
            (if endsWithNl l then ['\n'] else []))))) := by
      simp [List.append_assoc]
    rw [hsh]
    have hlstrip : lstrip ((rstripNl l).takeWhile isWs ++ ((a :: date2) ++ ([' '] ++
        ((if s2 ≠ [] then s2 ++ [' '] else []) ++ (desc ++
          (if endsWithNl l then ['\n'] else [])))))) =
        (a :: date2) ++ ([' '] ++ ((if s2 ≠ [] then s2 ++ [' '] else []) ++ (desc ++
          (if endsWithNl l then ['\n'] else [])))) := by
      rw [lstrip_append_all _ _ (fun d hd => List.mem_takeWhile_imp hd), List.cons_append,
        lstrip_cons_neg _ _ (hnws a (by simp))]
    unfold pstrip
    rw [hlstrip]
    by_cases hrt : rstripWs ([' '] ++ ((if s2 ≠ [] then s2 ++ [' '] else []) ++ (desc ++
        (if endsWithNl l then ['\n'] else [])))) = []
    · rw [rstripWs_append_all _ _ ((rstripWs_eq_nil_iff _).1 hrt)]
      obtain ⟨cl, hcl⟩ := getLast?_some_of_ne_nil (a :: date2) (by simp)
      rw [rstripWs_eq_self_of_last _ cl hcl (hnws cl (getLast?_mem _ cl hcl))]
      have := happend []
      rwa [List.append_nil] at this
    · rw [rstripWs_append _ _ hrt]
      exact happend _

lemma map_fst_pair (f : Nat → Line) :
    ∀ L : List Nat, (L.map (fun p => (p, f p))).map Prod.fst = L
  | [] => rfl
  | a :: r => by rw [List.map_cons, List.map_cons, map_fst_pair f r]

lemma finalStatusesOf_fst (ls : List Line) (t : Nat) (ps : List Nat) (s : Line) :
    (finalStatusesOf ls t ps s).map Prod.fst = findAllPostingsForTransaction ls t := by
  unfold finalStatusesOf
  exact map_fst_pair _ _

lemma finalStatusesOf_mem_fst (ls : List Line) (t : Nat) (ps : List Nat) (s : Line)
    (pr : Nat × Line) (hpr : pr ∈ finalStatusesOf ls t ps s) :
    pr.1 ∈ findAllPostingsForTransaction ls t := by
  rw [← finalStatusesOf_fst ls t ps s]
  exact List.mem_map.2 ⟨pr, hpr, rfl⟩

lemma findAllPostings_pairwise_sub (ls : List Line) (t : Nat) :
    (findAllPostingsForTransaction ls t).Pairwise (fun a b => a - 1 ≠ b - 1) := by
  have hpw := scanPostings_pairwise (ls.drop t) t
  refine List.Pairwise.imp_of_mem ?_ hpw
  intro a b ha _ hab
  have := scanPostings_ge (ls.drop t) t a ha
  omega

lemma finalStatusesOf_pairwise (ls : List Line) (t : Nat) (ps : List Nat) (s : Line) :
    (finalStatusesOf ls t ps s).Pairwise (fun a b => a.1 - 1 ≠ b.1 - 1) := by
  unfold finalStatusesOf
  rw [List.pairwise_map]
  refine List.Pairwise.imp_of_mem ?_ (findAllPostings_pairwise_sub ls t)
  intro a b _ _ hab
  simpa using hab

lemma processTransaction_getD_head (cur : List Line) (t : Nat) (ps : List Nat) (s : Line)
    (ht : 1 ≤ t) (hrange : t - 1 < cur.length) :
    (processTransaction cur t ps s).getD (t - 1) [] =
      updateTransactionLine (cur.getD (t - 1) [])
        (if (allSameStatus ((finalStatusesOf cur t ps s).map Prod.snd)
            && !((finalStatusesOf cur t ps s).map Prod.fst).isEmpty) = true then s else []) := by
  have hnot : ∀ p ∈ (finalStatusesOf cur t ps s).map Prod.fst, p - 1 ≠ t - 1 := by
    intro p hp
    rw [finalStatusesOf_fst] at hp
    have := (findAllPostings_facts cur t p hp).1
    omega
  unfold processTransaction
  by_cases hc : (allSameStatus ((finalStatusesOf cur t ps s).map Prod.snd)
      && !((finalStatusesOf cur t ps s).map Prod.fst).isEmpty) = true
  · rw [if_pos hc, if_pos hc, foldl_set_getD_ne _ _ _ _ _ hnot,
      getD_set_self cur (t - 1) _ hrange]
  · rw [if_neg hc, if_neg hc,
      foldl_set_getD_ne _ _ _ _ _ (fun pr hpr => hnot pr.1 (List.mem_map.2 ⟨pr, hpr, rfl⟩)),
      getD_set_self cur (t - 1) _ hrange]

lemma processTransaction_getD_post (cur : List Line) (t : Nat) (ps : List Nat) (s : Line)
    (pr : Nat × Line) (hpr : pr ∈ finalStatusesOf cur t ps s) (ht : 1 ≤ t) :
    (processTransaction cur t ps s).getD (pr.1 - 1) [] =
      if (allSameStatus ((finalStatusesOf cur t ps s).map Prod.snd)
          && !((finalStatusesOf cur t ps s).map Prod.fst).isEmpty) = true then
        updatePostingLine (cur.getD (pr.1 - 1) []) []
      else
        updatePostingLine (cur.getD (pr.1 - 1) []) pr.2 := by
  have hp1 := finalStatusesOf_mem_fst cur t ps s pr hpr
  have hfacts := findAllPostings_facts cur t pr.1 hp1
  have hset : (cur.set (t - 1) (updateTransactionLine (cur.getD (t - 1) []) s)).getD
      (pr.1 - 1) [] = cur.getD (pr.1 - 1) [] := by
    apply getD_set_ne
    have := hfacts.1
    omega
  have hset2 : (cur.set (t - 1) (updateTransactionLine (cur.getD (t - 1) []) [])).getD
      (pr.1 - 1) [] = cur.getD (pr.1 - 1) [] := by
    apply getD_set_ne
    have := hfacts.1
    omega
  unfold processTransaction
  by_cases hc : (allSameStatus ((finalStatusesOf cur t ps s).map Prod.snd)
      && !((finalStatusesOf cur t ps s).map Prod.fst).isEmpty) = true
  · rw [if_pos hc, if_pos hc]
    have h2 := foldl_set_getD_mem (fun p => p - 1)
      (fun acc p => updatePostingLine (acc.getD (p - 1) []) [])
      (fun acc acc2 y hy => congrArg (fun z => updatePostingLine z []) hy)
      ((finalStatusesOf cur t ps s).map Prod.fst)
      (cur.set (t - 1) (updateTransactionLine (cur.getD (t - 1) []) s))
      pr.1 (List.mem_map.2 ⟨pr, hpr, rfl⟩)
      (by rw [finalStatusesOf_fst]; exact findAllPostings_pairwise_sub cur t)
      (by rw [List.length_set]; exact hfacts.2.1)
    have h3 : (((finalStatusesOf cur t ps s).map Prod.fst).foldl
        (fun acc p => acc.set (p - 1) (updatePostingLine (acc.getD (p - 1) []) []))
        (cur.set (t - 1) (updateTransactionLine (cur.getD (t - 1) []) s))).getD
          (pr.1 - 1) []
        = updatePostingLine
            ((cur.set (t - 1)
              (updateTransactionLine (cur.getD (t - 1) []) s)).getD (pr.1 - 1) []) [] := h2
    rw [h3, hset]
  · rw [if_neg hc, if_neg hc]
    have h2 := foldl_set_getD_mem (fun q : Nat × Line => q.1 - 1)
      (fun acc q => updatePostingLine (acc.getD (q.1 - 1) []) q.2)
      (fun acc acc2 y hy => congrArg (fun z => updatePostingLine z y.2) hy)
      (finalStatusesOf cur t ps s)
      (cur.set (t - 1) (updateTransactionLine (cur.getD (t - 1) []) []))
      pr hpr
      (finalStatusesOf_pairwise cur t ps s)
      (by rw [List.length_set]; exact hfacts.2.1)
    have h3 : ((finalStatusesOf cur t ps s).foldl
        (fun acc q => acc.set (q.1 - 1) (updatePostingLine (acc.getD (q.1 - 1) []) q.2))
        (cur.set (t - 1) (updateTransactionLine (cur.getD (t - 1) []) []))).getD
          (pr.1 - 1) []
        = updatePostingLine
            ((cur.set (t - 1)
              (updateTransactionLine (cur.getD (t - 1) []) [])).getD (pr.1 - 1) []) pr.2 := h2
    rw [h3, hset2]

lemma processTransaction_writes (ls0 cur : List Line) (t : Nat) (ps : List Nat) (s : Line)
    (j : Nat) (hdp : ∀ i, isDate0 ls0 i = true → isDate0 cur i = true)
    (hlen : cur.length = ls0.length) (ht1 : 1 ≤ t) (htd : isDate0 ls0 (t - 1) = true)
    (hj : (processTransaction cur t ps s).getD j [] ≠ cur.getD j []) :
    t - 1 ≤ j ∧ j < nextDate ls0 t := by
  have htlen : t - 1 < ls0.length := isDate0_lt_length ls0 (t - 1) htd
  by_cases hj1 : j = t - 1
  · subst hj1
    have h1 := nextDate_ge ls0 t
    exact ⟨Nat.le_refl _, by omega⟩
  · by_cases hj2 : ∀ pr ∈ finalStatusesOf cur t ps s, j ≠ pr.1 - 1
    · exact absurd (processTransaction_getD_untouched cur t ps s j hj1 hj2) hj
    · push_neg at hj2
      obtain ⟨pr, hpr, hje⟩ := hj2
      subst hje
      have hfacts := findAllPostings_facts cur t pr.1 (finalStatusesOf_mem_fst _ _ _ _ pr hpr)
      have hmono := nextDate_mono_datepres ls0 cur t hlen (by omega) hdp
      have h5 := hfacts.2.2.2.2
      have h1 := hfacts.1
      exact ⟨by omega, by omega⟩

lemma processTransaction_datepres (ls0 cur : List Line) (t : Nat) (ps : List Nat) (s : Line)
    (hdp : ∀ i, isDate0 ls0 i = true → isDate0 cur i = true)
    (hlen : cur.length = ls0.length) (ht1 : 1 ≤ t) :
    ∀ i, isDate0 ls0 i = true → isDate0 (processTransaction cur t ps s) i = true := by
  intro i hi
  by_cases hch : (processTransaction cur t ps s).getD i [] = cur.getD i []
  · unfold isDate0
    rw [hch]
    exact hdp i hi
  · by_cases hi1 : i = t - 1
    · subst hi1
      have hrange : t - 1 < cur.length := by
        rw [hlen]
        exact isDate0_lt_length ls0 (t - 1) hi
      unfold isDate0
      rw [processTransaction_getD_head cur t ps s ht1 hrange]
      exact updateTransactionLine_isDate _ _ (hdp (t - 1) hi)
    · by_cases hj2 : ∀ pr ∈ finalStatusesOf cur t ps s, i ≠ pr.1 - 1
      · exact absurd (processTransaction_getD_untouched cur t ps s i hi1 hj2) hch
      · push_neg at hj2
        obtain ⟨pr, hpr, hje⟩ := hj2
        subst hje
        have hfacts := findAllPostings_facts cur t pr.1
          (finalStatusesOf_mem_fst _ _ _ _ pr hpr)
        have := hfacts.2.2.2.1
        rw [hdp (pr.1 - 1) hi] at this
        cases this

lemma applyGroups_outside (ls0 : List Line) (s : Line) :
    ∀ (gs : List (Nat × List Nat)) (cur : List Line),
      (∀ i, isDate0 ls0 i = true → isDate0 cur i = true) →
      cur.length = ls0.length →
      (∀ tp ∈ gs, 1 ≤ tp.1 ∧ isDate0 ls0 (tp.1 - 1) = true) →
      (∀ i, isDate0 ls0 i = true → isDate0 (applyGroups s cur gs) i = true) ∧
        (applyGroups s cur gs).length = ls0.length ∧
        (∀ j, (applyGroups s cur gs).getD j [] ≠ cur.getD j [] →
          ∃ tp ∈ gs, tp.1 - 1 ≤ j ∧ j < nextDate ls0 tp.1)
  | [], cur, hdp, hlen, _ => ⟨hdp, hlen, fun j hj => absurd rfl hj⟩
  | (t, ps) :: rest, cur, hdp, hlen, hkeys => by
    have hk := hkeys (t, ps) (by simp)
    have hdp2 := processTransaction_datepres ls0 cur t ps s hdp hlen hk.1
    have hlen2 : (processTransaction cur t ps s).length = ls0.length := by
      rw [processTransaction_length]
      exact hlen
    obtain ⟨ih1, ih2, ih3⟩ := applyGroups_outside ls0 s rest (processTransaction cur t ps s)
      hdp2 hlen2 (fun tp htp => hkeys tp (by simp [htp]))
    rw [applyGroups]
    refine ⟨ih1, ih2, ?_⟩
    intro j hj
    by_cases hstep : (processTransaction cur t ps s).getD j [] = cur.getD j []
    · rw [← hstep] at hj
      obtain ⟨tp, htp, hr⟩ := ih3 j hj
      exact ⟨tp, by simp [htp], hr⟩
    · exact ⟨(t, ps), by simp,
        processTransaction_writes ls0 cur t ps s j hdp hlen hk.1 hk.2 hstep⟩

lemma lstrip_rstripNl_comm (x : Line) : lstrip (rstripNl x) = rstripNl (lstrip x) := by
  induction x with
  | nil => rfl
  | cons a t ih =>
    by_cases ha : isWs a = true
    · rw [lstrip_cons_pos a t ha]
      by_cases hr : rstripNl t = []
      · have hall : ∀ c ∈ t, c = '\n' := (rstripNl_eq_nil_iff t).1 hr
        have hlt : lstrip t = [] := by
          apply lstrip_all
          intro c hc
          rw [hall c hc]
          decide
        by_cases han : a = '\n'
        · have h1 : rstripNl (a :: t) = [] := by
            apply rstripNl_all
            intro c hc
            rcases List.mem_cons.1 hc with rfl | hc2
            · exact han
            · exact hall c hc2
          rw [h1, hlt]
          rfl
        · rw [rstripNl_cons_neg a t han, hr, hlt]
          rw [show rstripNl ([] : Line) = [] from rfl]
          exact lstrip_cons_pos a [] ha
      · rw [rstripNl_cons_ne a t hr, lstrip_cons_pos a _ ha, ih]
    · have ha2 : isWs a = false := by simpa using ha
      have han : a ≠ '\n' := by
        intro he
        subst he
        simp [isWs] at ha2
      rw [lstrip_cons_neg a t ha2, rstripNl_cons_neg a t han, lstrip_cons_neg a _ ha2]

lemma extract_eq_nil_of_no_marker (l : Line) (hm : hasExplicitMarker l = false) :
    extractPostingStatus l = [] := by
  unfold extractPostingStatus
  cases hst : lstrip l with
  | nil => rfl
  | cons c t =>
    have hcw : isWs c = false := lstrip_head_not_ws l c t hst
    have hcn : c ≠ '\n' := by
      intro he
      subst he
      simp [isWs] at hcw
    have hst2 : lstrip (rstripNl l) = c :: rstripNl t := by
      rw [lstrip_rstripNl_comm, hst, rstripNl_cons_neg c t hcn]
    rw [hasExplicitMarker_eq l c (rstripNl t) hst2] at hm
    simp [hm]

lemma mem_pstrip_sub (l : Line) (c : Char) (hc : c ∈ pstrip l) : c ∈ l := by
  unfold pstrip rstripWs at hc
  have h1 : c ∈ lstrip l := by
    have hpre : (((lstrip l).reverse.dropWhile isWs).reverse) <+: lstrip l := by
      have hsuf : (lstrip l).reverse.dropWhile isWs <:+ (lstrip l).reverse :=
        List.dropWhile_suffix isWs
      obtain ⟨u, hu⟩ := hsuf
      refine ⟨u.reverse, ?_⟩
      have := congrArg List.reverse hu
      simpa using this
    exact hpre.subset hc
  exact (List.dropWhile_suffix isWs).subset h1

lemma pstrip_no_nl (l : Line) (hwf : nlOnlyAtEnd l = true) : ¬ '\n' ∈ pstrip l := by
  intro hmem
  rw [← pstrip_rstripNl l] at hmem
  have h2 : '\n' ∈ rstripNl l := mem_pstrip_sub _ _ hmem
  unfold nlOnlyAtEnd at hwf
  have : (rstripNl l).contains '\n' = true := by
    simpa using List.elem_eq_true_of_mem h2
  rw [this] at hwf
  cases hwf

lemma isDateStart_elim (s : Line) (hd : isDateStart s = true) :
    ∃ a b c d s1 e f s2 g h rest,
      s = a :: b :: c :: d :: s1 :: e :: f :: s2 :: g :: h :: rest ∧
      (a.isDigit && b.isDigit && c.isDigit && d.isDigit && isDateSep s1 &&
        e.isDigit && f.isDigit && isDateSep s2 && g.isDigit && h.isDigit) = true := by
  rcases s with _ | ⟨a, _ | ⟨b, _ | ⟨c, _ | ⟨d, _ | ⟨s1, _ | ⟨e, _ | ⟨f, _ | ⟨s2, _ | ⟨g, _ |
    ⟨hh, rest⟩⟩⟩⟩⟩⟩⟩⟩⟩⟩
  case nil => exact absurd hd (by simp [isDateStart])
  case cons.nil => exact absurd hd (by simp [isDateStart])
  case cons.cons.nil => exact absurd hd (by simp [isDateStart])
  case cons.cons.cons.nil => exact absurd hd (by simp [isDateStart])
  case cons.cons.cons.cons.nil => exact absurd hd (by simp [isDateStart])
  case cons.cons.cons.cons.cons.nil => exact absurd hd (by simp [isDateStart])
  case cons.cons.cons.cons.cons.cons.nil => exact absurd hd (by simp [isDateStart])
  case cons.cons.cons.cons.cons.cons.cons.nil =>
    exact absurd hd (by simp [isDateStart])
  case cons.cons.cons.cons.cons.cons.cons.cons.nil =>
    exact absurd hd (by simp [isDateStart])
  case cons.cons.cons.cons.cons.cons.cons.cons.cons.nil =>
    exact absurd hd (by simp [isDateStart])
  case cons.cons.cons.cons.cons.cons.cons.cons.cons.cons =>
    exact ⟨a, b, c, d, s1, e, f, s2, g, hh, rest, rfl, hd⟩

lemma contains_eq_false_of_not_mem (l : Line) (c : Char) (h : ¬ c ∈ l) :
    l.contains c = false := by
  by_contra hc
  have h2 : l.contains c = true := by simpa using hc
  have h3 : c ∈ l := by simpa using h2
  exact h h3

lemma matchTransactionHeader_full (s : Line) (hd : isDateStart s = true)
    (hnl : ¬ '\n' ∈ s) :
    ∃ mk desc, matchTransactionHeader s = some (s.take 10, mk, desc) ∧
      lstrip desc = desc ∧ desc <:+ s := by
  obtain ⟨a, b, c, d, s1, e, f, s2, g, hh, rest, rfl, hc⟩ := isDateStart_elim s hd
  have htake : (a :: b :: c :: d :: s1 :: e :: f :: s2 :: g :: hh :: rest).take 10
      = [a, b, c, d, s1, e, f, s2, g, hh] := rfl
  have hrest : rest <:+ a :: b :: c :: d :: s1 :: e :: f :: s2 :: g :: hh :: rest :=
    ⟨[a, b, c, d, s1, e, f, s2, g, hh], rfl⟩
  have hr1 : rest.dropWhile isWs <:+ rest := List.dropWhile_suffix isWs
  cases hdw : rest.dropWhile isWs with
  | nil =>
    refine ⟨[], [], ?_, rfl, List.nil_suffix⟩
    simp only [matchTransactionHeader]
    rw [if_pos hc, hdw]
    simp [htake]
  | cons m r2 =>
    have hmsuf : m :: r2 <:+ rest := hdw ▸ hr1
    by_cases hm : (m = '!' || m = '*') = true
    · have hdesc : r2.dropWhile isWs <:+ a :: b :: c :: d :: s1 :: e :: f :: s2 :: g ::
          hh :: rest := by
        calc r2.dropWhile isWs <:+ r2 := List.dropWhile_suffix isWs
        _ <:+ m :: r2 := List.suffix_cons m r2
        _ <:+ rest := hmsuf
        _ <:+ _ := hrest
      have hnm : ¬ '\n' ∈ r2.dropWhile isWs := fun hmem => hnl (hdesc.subset hmem)
      refine ⟨[m], r2.dropWhile isWs, ?_, lstrip_idem r2, hdesc⟩
      simp only [matchTransactionHeader]
      rw [if_pos hc, hdw]
      simp [hm, hnm, htake]
    · have hdesc : m :: r2 <:+ a :: b :: c :: d :: s1 :: e :: f :: s2 :: g :: hh :: rest :=
        hmsuf.trans hrest
      have hmw : isWs m = false := lstrip_head_not_ws rest m r2 hdw
      have hnm : ¬ '\n' ∈ m :: r2 := fun hmem => hnl (hdesc.subset hmem)
      refine ⟨[], m :: r2, ?_, lstrip_cons_neg m r2 hmw, hdesc⟩
      simp only [matchTransactionHeader]
      rw [if_pos hc, hdw]
      simp [Bool.eq_false_iff.2 hm, htake]
      constructor
      · intro hcontra
        exact hnm (List.mem_cons.2 (Or.inl hcontra))
      · intro hcontra
        exact hnm (List.mem_cons_of_mem m hcontra)

lemma getLast?_pstrip_not_ws (l : Line) (cl : Char)
    (h : (pstrip l).getLast? = some cl) : isWs cl = false := by
  unfold pstrip rstripWs at h
  rw [List.getLast?_reverse] at h
  exact head?_dropWhile_false _ _ _ h

lemma pstrip_assembled_header (tw D tail2 : Line)
    (htw : ∀ x ∈ tw, isWs x = true)
    (hDne : D ≠ []) (hDw : ∀ x ∈ D, isWs x = false) :
    pstrip (tw ++ (D ++ tail2)) =
      if rstripWs tail2 = [] then D else D ++ rstripWs tail2 := by
  obtain ⟨a, D2, rfl⟩ : ∃ a D2, D = a :: D2 := by
    cases D with
    | nil => exact absurd rfl hDne
    | cons a D2 => exact ⟨a, D2, rfl⟩
  unfold pstrip
  have hl : lstrip (tw ++ (a :: D2 ++ tail2)) = a :: D2 ++ tail2 := by
    rw [lstrip_append_all _ _ htw, List.cons_append,
      lstrip_cons_neg _ _ (hDw a (by simp))]
  rw [hl]
  by_cases hrt : rstripWs tail2 = []
  · rw [if_pos hrt, rstripWs_append_all _ _ ((rstripWs_eq_nil_iff _).1 hrt)]
    obtain ⟨cl, hcl⟩ := getLast?_some_of_ne_nil (a :: D2) (by simp)
    exact rstripWs_eq_self_of_last _ cl hcl (hDw cl (getLast?_mem _ cl hcl))
  · rw [if_neg hrt, rstripWs_append _ _ hrt]

lemma transactionHeaderStatus_update (l s2 : Line)
    (hdate : isDateStart (pstrip l) = true)
    (hwf : nlOnlyAtEnd l = true)
    (hdc : headerDescClean l = true)
    (hs2 : s2 ∈ statusMarkers) :
    transactionHeaderStatus (updateTransactionLine l s2) = s2 := by
  have hnl : ¬ '\n' ∈ pstrip l := pstrip_no_nl l hwf
  obtain ⟨mk, desc, hm, hdl, hdsuf⟩ := matchTransactionHeader_full (pstrip l) hdate hnl
  obtain ⟨a, b, c, d, p1, e, f, p2, g, hh, rest, hps, hbits⟩ := isDateStart_elim (pstrip l) hdate
  have htake : (pstrip l).take 10 = [a, b, c, d, p1, e, f, p2, g, hh] := by rw [hps]; rfl
  rw [htake] at hm
  set D : Line := [a, b, c, d, p1, e, f, p2, g, hh] with hD
  obtain ⟨hdapp, hdnws, hdne⟩ := matchTransactionHeader_date_facts _ _ _ _ hm
  have hm2 : matchTransactionHeader (pstrip (rstripNl l)) = some (D, mk, desc) := by
    rw [pstrip_rstripNl]; exact hm
  have htw : ∀ x ∈ (rstripNl l).takeWhile isWs, isWs x = true :=
    fun x hx => List.mem_takeWhile_imp hx
  have hnlsw : ∀ x ∈ (if endsWithNl l then ['\n'] else ([] : Line)), isWs x = true := by
    by_cases hen : endsWithNl l = true
    · rw [if_pos hen]; intro x hx; simp at hx; subst hx; decide
    · rw [if_neg hen]; intro x hx; simp at hx
  have hdrop : ∀ X : Line, (D ++ X).drop 10 = X := by
    intro X; rw [hD]; rfl
  have hdropD : D.drop 10 = [] := by rw [hD]; rfl
  have hrdesc : desc ≠ [] →
      rstripWs (desc ++ (if endsWithNl l then ['\n'] else [])) = desc := by
    intro hne
    rw [rstripWs_append_all _ _ hnlsw]
    obtain ⟨cl, hcl⟩ := getLast?_some_of_ne_nil desc hne
    have hcl2 : (pstrip l).getLast? = some cl := by
      rw [← suffix_getLast? (pstrip l) desc hdsuf hne]; exact hcl
    exact rstripWs_eq_self_of_last desc cl hcl (getLast?_pstrip_not_ws l cl hcl2)
  have hdcase : desc = [] ∨ ∃ c0 d2, desc = c0 :: d2 ∧ isWs c0 = false ∧
      (c0 = '!' || c0 = '*') = false := by
    cases hde : desc with
    | nil => exact Or.inl rfl
    | cons c0 d2 =>
      refine Or.inr ⟨c0, d2, rfl, ?_, ?_⟩
      · exact lstrip_head_not_ws desc c0 d2 (by rw [← hde]; exact hdl)
      · unfold headerDescClean at hdc
        simp only [hm] at hdc
        rw [hde] at hdc
        simpa using hdc
  simp only [statusMarkers, List.mem_cons, List.not_mem_nil, or_false] at hs2
  rcases hs2 with rfl | rfl | rfl
  · -- s2 = []
    have hupdL : updateTransactionLine l [] =
        (rstripNl l).takeWhile isWs ++ (D ++
          ([' '] ++ (desc ++ (if endsWithNl l then ['\n'] else [])))) := by
      simp only [updateTransactionLine, hm2]
      by_cases hen : endsWithNl l = true <;> simp [hen, List.append_assoc]
    rw [hupdL]
    simp only [transactionHeaderStatus]
    rw [pstrip_assembled_header ((rstripNl l).takeWhile isWs) D
      ([' '] ++ (desc ++ (if endsWithNl l then ['\n'] else []))) htw hdne hdnws]
    rcases hdcase with rfl | ⟨c0, d2, rfl, hc0w, hc0m⟩
    · have hrt : rstripWs ([' '] ++ (([] : Line) ++ (if endsWithNl l then ['\n'] else []))) = [] := by
        rw [List.nil_append, rstripWs_append_all _ _ hnlsw]; rfl
      rw [hrt, if_pos rfl]
      have hDfull : isDateStart D = true := by
        have := hdapp []; simpa using this
      rw [hDfull, if_pos rfl, hdropD]
      rfl
    · have hrne : rstripWs ((c0 :: d2) ++ (if endsWithNl l then ['\n'] else [])) ≠ [] := by
        rw [hrdesc (by simp)]; simp
      have hrt : rstripWs ([' '] ++ ((c0 :: d2) ++ (if endsWithNl l then ['\n'] else []))) =
          [' '] ++ (c0 :: d2) := by
        rw [rstripWs_append _ _ hrne, hrdesc (by simp)]
      rw [hrt]
      have hinner : (if ([' '] ++ c0 :: d2 : Line) = [] then D else D ++ ([' '] ++ c0 :: d2)) =
          D ++ ([' '] ++ c0 :: d2) := if_neg (by simp)
      rw [hinner, hdapp, if_pos rfl, hdrop]
      simp only [List.cons_append, List.nil_append]
      rw [List.dropWhile_cons_of_pos (by decide), List.dropWhile_cons_of_neg (by simp [hc0w])]
      simp [hc0m]
  · -- s2 = ['!']
    have hupdL : updateTransactionLine l ['!'] =
        (rstripNl l).takeWhile isWs ++ (D ++
          ([' ', '!', ' '] ++ (desc ++ (if endsWithNl l then ['\n'] else [])))) := by
      simp only [updateTransactionLine, hm2]
      by_cases hen : endsWithNl l = true <;> simp [hen, List.append_assoc]
    rw [hupdL]
    simp only [transactionHeaderStatus]
    rw [pstrip_assembled_header ((rstripNl l).takeWhile isWs) D
      ([' ', '!', ' '] ++ (desc ++ (if endsWithNl l then ['\n'] else []))) htw hdne hdnws]
    rcases hdcase with rfl | ⟨c0, d2, rfl, hc0w, hc0m⟩
    · have hrt : rstripWs ([' ', '!', ' '] ++ (([] : Line) ++ (if endsWithNl l then ['\n'] else []))) =
          [' ', '!'] := by
        rw [List.nil_append, rstripWs_append_all _ _ hnlsw]; rfl
      rw [hrt]
      have hinner : (if ([' ', '!'] : Line) = [] then D else D ++ [' ', '!']) =
          D ++ [' ', '!'] := if_neg (by simp)
      rw [hinner, hdapp, if_pos rfl, hdrop]
      rfl
    · have hrne : rstripWs ((c0 :: d2) ++ (if endsWithNl l then ['\n'] else [])) ≠ [] := by
        rw [hrdesc (by simp)]; simp
      have hrt : rstripWs ([' ', '!', ' '] ++ ((c0 :: d2) ++ (if endsWithNl l then ['\n'] else []))) =
          [' ', '!', ' '] ++ (c0 :: d2) := by
        rw [rstripWs_append _ _ hrne, hrdesc (by simp)]
      rw [hrt]
      have hinner : (if ([' ', '!', ' '] ++ (c0 :: d2) : Line) = [] then D
          else D ++ ([' ', '!', ' '] ++ (c0 :: d2))) =
          D ++ ([' ', '!', ' '] ++ (c0 :: d2)) := if_neg (by simp)
      rw [hinner, hdapp, if_pos rfl, hdrop]
      simp only [List.cons_append, List.nil_append]
      rw [List.dropWhile_cons_of_pos (by decide), List.dropWhile_cons_of_neg (by decide)]
      rfl
  · -- s2 = ['*']
    have hupdL : updateTransactionLine l ['*'] =
        (rstripNl l).takeWhile isWs ++ (D ++
          ([' ', '*', ' '] ++ (desc ++ (if endsWithNl l then ['\n'] else [])))) := by
      simp only [updateTransactionLine, hm2]
      by_cases hen : endsWithNl l = true <;> simp [hen, List.append_assoc]
    rw [hupdL]
    simp only [transactionHeaderStatus]
    rw [pstrip_assembled_header ((rstripNl l).takeWhile isWs) D
      ([' ', '*', ' '] ++ (desc ++ (if endsWithNl l then ['\n'] else []))) htw hdne hdnws]
    rcases hdcase with rfl | ⟨c0, d2, rfl, hc0w, hc0m⟩
    · have hrt : rstripWs ([' ', '*', ' '] ++ (([] : Line) ++ (if endsWithNl l then ['\n'] else []))) =
          [' ', '*'] := by
        rw [List.nil_append, rstripWs_append_all _ _ hnlsw]; rfl
      rw [hrt]
      have hinner : (if ([' ', '*'] : Line) = [] then D else D ++ [' ', '*']) =
          D ++ [' ', '*'] := if_neg (by simp)
      rw [hinner, hdapp, if_pos rfl, hdrop]
      rfl
    · have hrne : rstripWs ((c0 :: d2) ++ (if endsWithNl l then ['\n'] else [])) ≠ [] := by
        rw [hrdesc (by simp)]; simp
      have hrt : rstripWs ([' ', '*', ' '] ++ ((c0 :: d2) ++ (if endsWithNl l then ['\n'] else []))) =
          [' ', '*', ' '] ++ (c0 :: d2) := by
        rw [rstripWs_append _ _ hrne, hrdesc (by simp)]
      rw [hrt]
      have hinner : (if ([' ', '*', ' '] ++ (c0 :: d2) : Line) = [] then D
          else D ++ ([' ', '*', ' '] ++ (c0 :: d2))) =
          D ++ ([' ', '*', ' '] ++ (c0 :: d2)) := if_neg (by simp)
      rw [hinner, hdapp, if_pos rfl, hdrop]
      simp only [List.cons_append, List.nil_append]
      rw [List.dropWhile_cons_of_pos (by decide), List.dropWhile_cons_of_neg (by decide)]
      rfl

lemma extract_updatePostingLine_marker (l : Line) (m : Char)
    (hns : ¬ pstrip l = []) (hm : (m = '!' || m = '*') = true) :
    extractPostingStatus (updatePostingLine l [m]) = [m] := by
  have hmw : isWs m = false := by
    rcases (by simpa using hm : m = '!' ∨ m = '*') with rfl | rfl <;> decide
  rw [updatePostingLine_set l [m] hns (by simp)]
  have hshape : (rstripNl l).takeWhile isWs ++ [m] ++ [' '] ++ postingContent l ++
      (if endsWithNl l then ['\n'] else []) =
      (rstripNl l).takeWhile isWs ++ (m :: ([' '] ++ postingContent l ++
        (if endsWithNl l then ['\n'] else []))) := by
    simp [List.append_assoc]
  rw [hshape]
  unfold extractPostingStatus
  rw [lstrip_append_all _ _ (fun d hd => List.mem_takeWhile_imp hd), lstrip_cons_neg m _ hmw]
  simp [hm]

lemma extract_updatePostingLine_clear (l : Line) (hnh : noHiddenMarker l = true) :
    extractPostingStatus (updatePostingLine l []) = [] := by
  by_cases hns : pstrip l = []
  · rw [updatePostingLine_blank l [] hns]
    unfold extractPostingStatus
    rw [lstrip_all l ((pstrip_eq_nil_iff l).1 hns)]
  · by_cases hem : hasExplicitMarker l = true
    · rw [updatePostingLine_clear_marked l hns hem]
      cases hpc : postingContent l with
      | nil =>
        have hsh : (rstripNl l).takeWhile isWs ++ ([] : Line) ++
            (if endsWithNl l then ['\n'] else []) =
            (rstripNl l).takeWhile isWs ++ (if endsWithNl l then ['\n'] else []) := by
          simp
        rw [hsh]
        unfold extractPostingStatus
        rw [lstrip_append_all _ _ (fun d hd => List.mem_takeWhile_imp hd)]
        by_cases hen : endsWithNl l = true
        · rw [if_pos hen, lstrip_all ['\n'] (by intro x hx; simp at hx; subst hx; decide)]
        · rw [if_neg hen]
          rfl
      | cons c t =>
        have hcw : isWs c = false := postingContent_head_not_ws l c t hpc
        have hcm : (c = '!' || c = '*') = false := noHiddenMarker_head l hnh c t hpc
        have hsh : (rstripNl l).takeWhile isWs ++ (c :: t) ++
            (if endsWithNl l then ['\n'] else []) =
            (rstripNl l).takeWhile isWs ++ (c :: (t ++
              (if endsWithNl l then ['\n'] else []))) := by
          simp [List.append_assoc]
        rw [hsh]
        unfold extractPostingStatus
        rw [lstrip_append_all _ _ (fun d hd => List.mem_takeWhile_imp hd),
          lstrip_cons_neg c _ hcw]
        simp [hcm]
    · rw [updatePostingLine_clear_unmarked l (by simpa using hem)]
      exact extract_eq_nil_of_no_marker l (by simpa using hem)

lemma getD_mem_of_lt (l : List Line) (i : Nat) (h : i < l.length) : l.getD i [] ∈ l := by
  rw [List.getD_eq_getElem l [] h]
  exact List.getElem_mem h

lemma extractPostingStatus_range (l : Line) : extractPostingStatus l ∈ statusMarkers := by
  unfold extractPostingStatus statusMarkers
  split
  · rename_i c t heq
    by_cases h1 : c = '!'
    · subst h1; simp
    · by_cases h2 : c = '*'
      · subst h2; simp
      · rw [if_neg (by simp [h1, h2])]; simp
  · simp

lemma transactionHeaderStatus_range (l : Line) :
    transactionHeaderStatus l ∈ statusMarkers := by
  unfold transactionHeaderStatus statusMarkers
  by_cases hd : isDateStart (pstrip l) = true
  · rw [if_pos hd]
    split
    · rename_i c t heq
      by_cases h1 : c = '!'
      · subst h1; simp
      · by_cases h2 : c = '*'
        · subst h2; simp
        · rw [if_neg (by simp [h1, h2])]; simp
    · simp
  · rw [if_neg hd]; simp

lemma getEffectivePostingStatus_range (lines : List Line) (p t : Nat) :
    getEffectivePostingStatus lines p t ∈ statusMarkers := by
  unfold getEffectivePostingStatus
  by_cases h : extractPostingStatus (lines.getD (p - 1) []) ≠ []
  · rw [if_pos h]
    exact extractPostingStatus_range _
  · rw [if_neg h]
    exact transactionHeaderStatus_range _

lemma finalStatusesOf_mem_snd (ls : List Line) (t : Nat) (ps : List Nat) (s : Line)
    (hs : s ∈ statusMarkers) (pr : Nat × Line) (hpr : pr ∈ finalStatusesOf ls t ps s) :
    pr.2 ∈ statusMarkers := by
  unfold finalStatusesOf at hpr
  obtain ⟨p, hp, hpe⟩ := List.mem_map.1 hpr
  subst hpe
  by_cases hmem : p ∈ ps
  · simpa [hmem] using hs
  · simpa [hmem] using getEffectivePostingStatus_range ls p t

lemma cleanLine_parts (l : Line) (h : cleanLine l = true) :
    nlOnlyAtEnd l = true ∧ noHiddenMarker l = true ∧ headerDescClean l = true := by
  unfold cleanLine at h
  simp only [Bool.and_eq_true] at h
  exact ⟨h.1.1, h.1.2, h.2⟩

lemma region_disjoint (ls0 : List Line) (t t' j : Nat) (hne : t ≠ t')
    (ht : 1 ≤ t) (htd : isDate0 ls0 (t - 1) = true)
    (ht' : 1 ≤ t') (htd' : isDate0 ls0 (t' - 1) = true)
    (h1 : t - 1 ≤ j) (h2 : j < nextDate ls0 t)
    (h1' : t' - 1 ≤ j) (h2' : j < nextDate ls0 t') : False := by
  rcases Nat.lt_or_ge t t' with hlt | hge
  · have := nextDate_le_of_date ls0 t (t' - 1) (by omega) htd'
    omega
  · have hlt : t' < t := by omega
    have := nextDate_le_of_date ls0 t' (t - 1) (by omega) htd
    omega

lemma processTransaction_nf (cur : List Line) (t : Nat) (ps : List Nat) (s : Line)
    (hs : s ∈ statusMarkers) (ht1 : 1 ≤ t)
    (htd : isDate0 cur (t - 1) = true)
    (hclh : cleanLine (cur.getD (t - 1) []) = true)
    (hclp : ∀ pr ∈ finalStatusesOf cur t ps s, noHiddenMarker (cur.getD (pr.1 - 1) []) = true) :
    normalFormAt (processTransaction cur t ps s) s (t, finalStatusesOf cur t ps s) := by
  have hrange : t - 1 < cur.length := isDate0_lt_length cur (t - 1) htd
  obtain ⟨hwf, hnh, hdc⟩ := cleanLine_parts _ hclh
  have hhead := processTransaction_getD_head cur t ps s ht1 hrange
  unfold normalFormAt
  by_cases hcond : (allSameStatus ((finalStatusesOf cur t ps s).map Prod.snd)
      && !((finalStatusesOf cur t ps s).map Prod.fst).isEmpty) = true
  · rw [if_pos hcond]
    rw [if_pos hcond] at hhead
    refine ⟨?_, ?_⟩
    · rw [hhead]
      exact transactionHeaderStatus_update _ s htd hwf hdc hs
    · intro pr hpr
      have hpost := processTransaction_getD_post cur t ps s pr hpr ht1
      rw [if_pos hcond] at hpost
      rw [hpost]
      exact extract_updatePostingLine_clear _ (hclp pr hpr)
  · rw [if_neg hcond]
    rw [if_neg hcond] at hhead
    refine ⟨?_, ?_⟩
    · rw [hhead]
      exact transactionHeaderStatus_update _ [] htd hwf hdc (by simp [statusMarkers])
    · intro pr hpr
      have hpost := processTransaction_getD_post cur t ps s pr hpr ht1
      rw [if_neg hcond] at hpost
      rw [hpost]
      have hsnd := finalStatusesOf_mem_snd cur t ps s hs pr hpr
      simp only [statusMarkers, List.mem_cons, List.not_mem_nil, or_false] at hsnd
      rcases hsnd with hnil | hbang | hstar
      · rw [hnil]
        exact extract_updatePostingLine_clear _ (hclp pr hpr)
      · rw [hbang]
        exact extract_updatePostingLine_marker _ '!'
          (findAllPostings_facts cur t pr.1 (finalStatusesOf_mem_fst _ _ _ _ pr hpr)).2.2.1
          (by decide)
      · rw [hstar]
        exact extract_updatePostingLine_marker _ '*'
          (findAllPostings_facts cur t pr.1 (finalStatusesOf_mem_fst _ _ _ _ pr hpr)).2.2.1
          (by decide)

lemma applyGroups_nf (ls0 : List Line) (s : Line) (hs : s ∈ statusMarkers)
    (hclean : ∀ l ∈ ls0, cleanLine l = true) :
    ∀ (gs : List (Nat × List Nat)) (cur : List Line),
      (∀ i, isDate0 ls0 i = true → isDate0 cur i = true) →
      cur.length = ls0.length →
      (∀ tp ∈ gs, 1 ≤ tp.1 ∧ isDate0 ls0 (tp.1 - 1) = true) →
      ((gs.map Prod.fst).Nodup) →
      (∀ tp ∈ gs, ∀ j, tp.1 - 1 ≤ j → j < nextDate ls0 tp.1 →
        cur.getD j [] = ls0.getD j []) →
      ∀ tf ∈ groupPlans s cur gs, normalFormAt (applyGroups s cur gs) s tf
  | [], cur, _, _, _, _, _, tf, htf => absurd htf (by simp [groupPlans])
  | (t, ps) :: rest, cur, hdp, hlen, hkeys, hnd, hpris, tf, htf => by
    have hk := hkeys (t, ps) (by simp)
    have htd_cur : isDate0 cur (t - 1) = true := hdp _ hk.2
    have htlen0 : t - 1 < ls0.length := isDate0_lt_length ls0 (t - 1) hk.2
    have hndge : t ≤ nextDate ls0 t := nextDate_ge ls0 t
    have hmono : nextDate cur t ≤ nextDate ls0 t :=
      nextDate_mono_datepres ls0 cur t hlen (by omega) hdp
    have hpris_t : ∀ j, t - 1 ≤ j → j < nextDate ls0 t → cur.getD j [] = ls0.getD j [] :=
      hpris (t, ps) (by simp)
    have hdp2 := processTransaction_datepres ls0 cur t ps s hdp hlen hk.1
    have hlen2 : (processTransaction cur t ps s).length = ls0.length := by
      rw [processTransaction_length]; exact hlen
    have hrest_keys : ∀ tp ∈ rest, 1 ≤ tp.1 ∧ isDate0 ls0 (tp.1 - 1) = true :=
      fun tp htp => hkeys tp (List.mem_cons_of_mem _ htp)
    have hnd2 : t ∉ rest.map Prod.fst ∧ (rest.map Prod.fst).Nodup := by
      rw [List.map_cons, List.nodup_cons] at hnd
      exact hnd
    have htne : ∀ tp ∈ rest, tp.1 ≠ t := by
      intro tp htp he
      exact hnd2.1 (he ▸ List.mem_map.2 ⟨tp, htp, rfl⟩)
    -- the rewrite of this transaction leaves other regions untouched
    have hpris2 : ∀ tp ∈ rest, ∀ j, tp.1 - 1 ≤ j → j < nextDate ls0 tp.1 →
        (processTransaction cur t ps s).getD j [] = ls0.getD j [] := by
      intro tp htp j hj1 hj2
      have hc : (processTransaction cur t ps s).getD j [] = cur.getD j [] := by
        by_contra hne
        have hw := processTransaction_writes ls0 cur t ps s j hdp hlen hk.1 hk.2 hne
        exact region_disjoint ls0 tp.1 t j (htne tp htp) (hrest_keys tp htp).1
          (hrest_keys tp htp).2 hk.1 hk.2 hj1 hj2 hw.1 hw.2
      rw [hc]
      exact hpris tp (List.mem_cons_of_mem _ htp) j hj1 hj2
    -- the tail's rewrites leave this transaction's region untouched
    have houtside := applyGroups_outside ls0 s rest (processTransaction cur t ps s)
      hdp2 hlen2 hrest_keys
    have hregion : ∀ j, t - 1 ≤ j → j < nextDate ls0 t →
        (applyGroups s (processTransaction cur t ps s) rest).getD j [] =
          (processTransaction cur t ps s).getD j [] := by
      intro j hj1 hj2
      by_contra hne
      obtain ⟨tp, htp, hj3, hj4⟩ := houtside.2.2 j hne
      exact region_disjoint ls0 t tp.1 j (fun he => htne tp htp he.symm) hk.1 hk.2
        (hrest_keys tp htp).1 (hrest_keys tp htp).2 hj1 hj2 hj3 hj4
    rw [groupPlans] at htf
    rw [applyGroups]
    rcases List.mem_cons.1 htf with rfl | htf2
    · -- the head transaction: transfer the local normal form through the tail
      have hclh : cleanLine (cur.getD (t - 1) []) = true := by
        rw [hpris_t (t - 1) (Nat.le_refl _) (by omega)]
        exact hclean _ (getD_mem_of_lt ls0 (t - 1) htlen0)
      have hclp : ∀ pr ∈ finalStatusesOf cur t ps s,
          noHiddenMarker (cur.getD (pr.1 - 1) []) = true := by
        intro pr hpr
        have hf := findAllPostings_facts cur t pr.1 (finalStatusesOf_mem_fst _ _ _ _ pr hpr)
        have h1 := hf.1
        have h5 := hf.2.2.2.2
        rw [hpris_t (pr.1 - 1) (by omega) (by omega)]
        exact (cleanLine_parts _ (hclean _ (getD_mem_of_lt ls0 (pr.1 - 1)
          (by have := hf.2.1; omega)))).2.1
      have hlocal := processTransaction_nf cur t ps s hs hk.1 htd_cur hclh hclp
      unfold normalFormAt at hlocal ⊢
      by_cases hcond : (allSameStatus ((finalStatusesOf cur t ps s).map Prod.snd)
          && !((finalStatusesOf cur t ps s).map Prod.fst).isEmpty) = true
      · rw [if_pos hcond] at hlocal ⊢
        refine ⟨?_, ?_⟩
        · rw [hregion (t - 1) (Nat.le_refl _) (by omega)]
          exact hlocal.1
        · intro pr hpr
          have hf := findAllPostings_facts cur t pr.1 (finalStatusesOf_mem_fst _ _ _ _ pr hpr)
          have h1 := hf.1
          have h5 := hf.2.2.2.2
          rw [hregion (pr.1 - 1) (by omega) (by omega)]
          exact hlocal.2 pr hpr
      · rw [if_neg hcond] at hlocal ⊢
        refine ⟨?_, ?_⟩
        · rw [hregion (t - 1) (Nat.le_refl _) (by omega)]
          exact hlocal.1
        · intro pr hpr
          have hf := findAllPostings_facts cur t pr.1 (finalStatusesOf_mem_fst _ _ _ _ pr hpr)
          have h1 := hf.1
          have h5 := hf.2.2.2.2
          rw [hregion (pr.1 - 1) (by omega) (by omega)]
          exact hlocal.2 pr hpr
    · exact applyGroups_nf ls0 s hs hclean rest (processTransaction cur t ps s)
        hdp2 hlen2 hrest_keys hnd2.2 hpris2 tf htf2

/-- C3: a batch update leaves every affected transaction in normal form —
in the collapse branch the header carries the new status and every
enumerated posting loses its explicit marker, otherwise the header is
unmarked and every enumerated posting carries exactly its planned final
status.  This is proved here for buffers of clean physical lines (newline
only at the end, no hidden second marker behind an explicit one, header
description not starting with a marker character) and a new status among
unset/pending/cleared; without the cleanliness hypothesis the claim is
false (see the counterexample). -/
theorem c3_amended_normal_form (lines : List Line) (nums : List Nat) (e s : Line)
    (final : List Line) (groups : List (Nat × List Nat))
    (hplan : updatePostingsPlan lines nums e s = some final)
    (hgroups : groupByTransaction lines nums = some groups)
    (hclean : ∀ l ∈ lines, cleanLine l = true)
    (hs : s ∈ statusMarkers) :
    ∀ tf ∈ groupPlans s lines groups, normalFormAt final s tf := by
  obtain ⟨hv, groups2, hg2, hfinal⟩ := plan_some_elim lines nums e s final hplan
  rw [hgroups] at hg2
  injection hg2 with hg2
  subst hg2
  subst hfinal
  have hfacts := groupByTransaction_facts lines nums groups hgroups
  have hkeys : ∀ tp ∈ groups, 1 ≤ tp.1 ∧ isDate0 lines (tp.1 - 1) = true := by
    intro tp htp
    obtain ⟨n, hn, hfind⟩ := hfacts.1 tp htp
    exact findTransAux_some_facts lines (n - 1) tp.1 hfind
  exact applyGroups_nf lines s hs hclean groups lines (fun i h => h) rfl hkeys
    hfacts.2 (fun tp htp j hj1 hj2 => rfl)

/-- C3 counterexample: on `["2024-01-01 d\n", "  ! * Assets\n"]` with target
line 2, expected `!` and new status `*`, the batch succeeds and the collapse
branch is chosen, yet the rewritten posting (`"  * Assets\n"`) still carries
an explicit `*` marker: clearing the `!` exposed the second marker hidden
behind it, so the affected transaction is not in the claimed normal form.
The offending line is exactly what the cleanliness hypothesis of the
amended theorem excludes. -/
theorem c3_counterexample :
    c3buffer.all cleanLine = false ∧
    groupByTransaction c3buffer [2] = some [(1, [2])] ∧
    updatePostingsPlan c3buffer [2] ['!'] ['*'] =
      some [['2', '0', '2', '4', '-', '0', '1', '-', '0', '1', ' ', '*', ' ', 'd', '\n'],
            [' ', ' ', '*', ' ', 'A', 's', 's', 'e', 't', 's', '\n']] ∧
    groupPlans ['*'] c3buffer [(1, [2])] = [(1, [(2, ['*'])])] ∧
    ¬ normalFormAt
      [['2', '0', '2', '4', '-', '0', '1', '-', '0', '1', ' ', '*', ' ', 'd', '\n'],
       [' ', ' ', '*', ' ', 'A', 's', 's', 'e', 't', 's', '\n']] ['*'] (1, [(2, ['*'])]) := by
  refine ⟨by decide, by decide, by decide, by decide, ?_⟩
  unfold normalFormAt
  decide

theorem c3_amended_normal_form_witness :
    normalFormAt [['2', '0', '2', '4', '-', '0', '1', '-', '0', '1', ' ', '*', ' ', 'T'],
      [' ', ' ', 'A'], [' ', ' ', 'B']] ['*'] (1, [(2, ['*']), (3, ['*'])]) :=
  c3_amended_normal_form pairBuffer [2, 3] ['!'] ['*'] _ [(1, [2, 3])]
    (by decide) (by decide) (by decide) (by decide)
    (1, [(2, ['*']), (3, ['*'])]) (by decide)
